import Mathlib

/-!
Shallow embedding of the aspera25 conference-data tools:
  - export-to-excel.py  (JSON document → four sheets)
  - import-from-excel.py (four sheets + original document → updated document)

Modelling conventions, used uniformly below:
  - Python strings are modelled as `List Char` (abbreviated `Str`); `str.strip`
    strips the ASCII whitespace characters space/tab/newline/CR.
  - A spreadsheet cell is `Cell`: blank (None / NaN / missing), a string, or an
    integer number.  Floats only occur in the scripts as NaN (blank) or as
    integer-valued cell contents, so numeric cells are modelled by `Int`; the
    Python `int(x)` truncation on such a cell is the identity on the stored
    integer.  An empty-string cell and a NaN cell behave identically on every
    code path taken by the scripts (`is_blank`, `isinstance(_, str) and
    startswith` which fails for both, `== 'paper'` which fails for both,
    truthiness), so exported empty strings are kept as `.str []`.
  - Python `None` becomes `Option.none`; Python dicts keyed by strings become
    insertion-ordered association lists with `setKey` as dict assignment.
  - Warning messages are modelled by an inductive carrying exactly the data
    interpolated into the Python message strings.
  - The only statement in the reconciliation pipeline that can raise on cell
    contents is `int(...)` applied to the Year / Duration cells of film rows;
    the pipeline is therefore an `Except PyError` computation.
-/

namespace Aspera

abbrev Str := List Char

/-- ASCII whitespace, as stripped by Python `str.strip()`. -/
def isSpace (c : Char) : Bool :=
  c = ' ' || c = '\t' || c = '\n' || c = '\r'

def lstrip (s : Str) : Str := s.dropWhile isSpace

def rstrip (s : Str) : Str := (s.reverse.dropWhile isSpace).reverse

/-- Python `str.strip()`. -/
def strip (s : Str) : Str := rstrip (lstrip s)

/-- A spreadsheet cell / JSON scalar as the scripts see it. -/
inductive Cell where
  | blank : Cell
  | str (s : Str) : Cell
  | num (n : Int) : Cell
deriving DecidableEq, Repr

/-- `is_blank(value)` from import-from-excel.py: None, NaN, or
whitespace-only string. -/
def is_blank (c : Cell) : Bool :=
  match c with
  | .blank => true
  | .str s => strip s = ([] : Str)
  | .num _ => false

/-- Decimal digits of a natural number, most significant first
(fuel-driven so that it reduces in the kernel). -/
def natDigitsAux : Nat → Nat → Str
  | 0, _ => []
  | fuel + 1, n =>
    if n < 10 then [Char.ofNat (48 + n)]
    else natDigitsAux fuel (n / 10) ++ [Char.ofNat (48 + n % 10)]

def natToStr (n : Nat) : Str := natDigitsAux (n + 1) n

/-- Python `str(n)` for an integer `n`. -/
def intToStr (n : Int) : Str :=
  if n < 0 then '-' :: natToStr n.natAbs else natToStr n.natAbs

/-- Python `str(value)` on a cell (never applied to blanks by the scripts). -/
def cellToStr (c : Cell) : Str :=
  match c with
  | .blank => []
  | .str s => s
  | .num n => intToStr n

/-- `clean_text(value)` from import-from-excel.py with the default
`default=""`. -/
def clean_text (c : Cell) : Str :=
  if is_blank c then [] else strip (cellToStr c)

/-- `clean_text` applied to a value already known to be a Python string
(used on the panel-description fallback). -/
def clean_text_str (s : Str) : Str :=
  if strip s = ([] : Str) then [] else strip s

def leftPad (p : Char) (w : Nat) (s : Str) : Str :=
  List.replicate (w - s.length) p ++ s

/-- Python `str.zfill(4)` on a digit string. -/
def zfill4 (s : Str) : Str := leftPad '0' 4 s

/-- Python `f"{n:04d}"`: width 4, zero padding placed after the sign. -/
def formatInt04 (n : Int) : Str :=
  if n < 0 then '-' :: leftPad '0' 3 (natToStr n.natAbs)
  else leftPad '0' 4 (natToStr n.natAbs)

def isDigitStr (s : Str) : Bool := s ≠ [] && s.all Char.isDigit

/-- `format_time_value(value)` from import-from-excel.py. -/
def format_time_value (c : Cell) : Str :=
  if is_blank c then []
  else
    match c with
    | .num n => formatInt04 n
    | .str s =>
      let t := strip s
      if isDigitStr t && t.length ≤ 4 then zfill4 t else t
    | .blank => []

/-- The tail check of the inline-institution pattern: the remainder after a
candidate open parenthesis must be a non-empty run of characters other than
a closing parenthesis, followed by the closing parenthesis that ends the
(already right-stripped) string. -/
def goodTail (rest : Str) : Bool :=
  rest.length ≥ 2 && rest.getLast? = some ')' && decide (')' ∉ rest.dropLast)

/-- Left-to-right scan realising the lazy match of the Python regex
`^(.+?)\s*\(([^)]+)\)\s*$` on a stripped string: the first position `≥ 1`
whose open parenthesis is followed by a valid tail wins.  Returns the text
before the parenthesis and the text inside it. -/
def scanParen (pre : Str) : Str → Option (Str × Str)
  | [] => none
  | c :: rest =>
    if c = '(' && goodTail rest then some (pre, rest.dropLast)
    else scanParen (pre ++ [c]) rest

/-- `parse_name_with_institution(name_str)` from import-from-excel.py.
Blank input yields `("", None)`; otherwise the stripped string is matched
against `^(.+?)\s*\(([^)]+)\)\s*$`; on a match both groups are stripped. -/
def parse_name_with_institution (s : Str) : Str × Option Str :=
  if is_blank (.str s) then ([], none)
  else
    match strip s with
    | [] => ([], none)
    | c :: rest =>
      match scanParen [c] rest with
      | some (pre, inside) => (strip pre, some (strip inside))
      | none => (strip s, none)

def splitSemiAux (cur : Str) : Str → List Str
  | [] => [cur.reverse]
  | c :: rest =>
    if c = ';' then cur.reverse :: splitSemiAux [] rest
    else splitSemiAux (c :: cur) rest

/-- Python `s.split(';')`. -/
def splitSemi (s : Str) : List Str := splitSemiAux [] s

/-- `parse_names(names_str)` from import-from-excel.py: blank or falsy cells
give `[]`; otherwise split on `';'`, strip each part, drop empty parts. -/
def parse_names (c : Cell) : List Str :=
  match c with
  | .blank => []
  | .str s =>
    if s = [] then []
    else (splitSemi s).filterMap (fun p => if strip p = ([] : Str) then none else some (strip p))
  | .num n =>
    if n = 0 then []
    else (splitSemi (intToStr n)).filterMap
      (fun p => if strip p = ([] : Str) then none else some (strip p))

/-- Python `str.replace('SESSION', '')`: delete every (non-overlapping,
left-to-right) occurrence of `SESSION`. -/
def replaceSESSION : Str → Str
  | 'S' :: 'E' :: 'S' :: 'S' :: 'I' :: 'O' :: 'N' :: rest => replaceSESSION rest
  | c :: rest => c :: replaceSESSION rest
  | [] => []

/-- Python `int(s)` on a string: optional surrounding whitespace, optional
sign, a non-empty run of digits; anything else raises. -/
def pyIntStr (s : Str) : Option Int :=
  let t := strip s
  match t with
  | '-' :: ds => if isDigitStr ds then some (-(Int.ofNat (Nat.ofDigits 10 (ds.map (fun c => c.toNat - 48)).reverse))) else none
  | '+' :: ds => if isDigitStr ds then some (Int.ofNat (Nat.ofDigits 10 (ds.map (fun c => c.toNat - 48)).reverse)) else none
  | ds => if isDigitStr ds then some (Int.ofNat (Nat.ofDigits 10 (ds.map (fun c => c.toNat - 48)).reverse)) else none

/-- Python `int(value)` on a cell (raises = `none` on blanks handled by
callers; on strings falls back to `pyIntStr`). -/
def pyIntCell (c : Cell) : Option Int :=
  match c with
  | .num n => some n
  | .str s => pyIntStr s
  | .blank => none

/-! ## Python truthiness -/

def pyTruthyCell : Cell → Bool
  | .blank => false
  | .str s => s ≠ []
  | .num n => n ≠ 0

def pyTruthyOptCell : Option Cell → Bool
  | none => false
  | some c => pyTruthyCell c

def pyTruthyOptStr : Option Str → Bool
  | none => false
  | some s => s ≠ []

/-- `is_blank` on an optional string (how the scripts apply `is_blank` to a
parsed inline institution, which is `None` or a string). -/
def is_blank_opt : Option Str → Bool
  | none => true
  | some s => strip s = ([] : Str)

/-! ## Association lists: insertion-ordered Python dicts -/

def lookupKey {α : Type} (k : Str) : List (Str × α) → Option α
  | [] => none
  | (k1, v) :: rest => if k1 = k then some v else lookupKey k rest

def hasKey {α : Type} (k : Str) (l : List (Str × α)) : Bool :=
  (lookupKey k l).isSome

/-- Python dict assignment `d[k] = v`: update in place if the key exists,
otherwise append at the end. -/
def setKey {α : Type} (k : Str) (v : α) : List (Str × α) → List (Str × α)
  | [] => [(k, v)]
  | (k1, v1) :: rest => if k1 = k then (k, v) :: rest else (k1, v1) :: setKey k v rest

/-! ## Data model (JSON document) -/

/-- An embedded participant reference `{name, institution}`.  The
institution slot holds whatever the registry holds, hence a `Cell`. -/
structure Ref where
  name : Str
  institution : Option Cell
deriving DecidableEq, Repr

structure Paper where
  title : Str
  abstract : Str
  authors : List Ref
deriving DecidableEq, Repr

structure Session where
  type : Str
  title : Str
  description : Str
  presenters : List Ref
  papers : List Paper
deriving DecidableEq, Repr

structure Film where
  title : Str
  year : Option Int
  duration : Option Int
  creatives : List Ref
deriving DecidableEq, Repr

structure Event where
  day : Str
  time : Str
  venue : Str
  content : Str
  type : Str
  session_num : Option Str
  affiliation : Option Str
  presenters : Option (List Ref)
  abstract : Option Str
  films : Option (List Film)
  headshot_url : Option Str
  logo_url : Option Str
deriving DecidableEq, Repr

/-- The conference document.  `conference` and `venues` are opaque payloads
copied verbatim by the reconciler and are modelled as opaque strings. -/
structure Doc where
  conference : Str
  venues : Str
  events : List Event
  sessions : List (Str × Session)
  panel_descriptions : List (Str × Str)
deriving DecidableEq, Repr

/-! ## Import: sheet rows and warnings -/

structure PartRow where
  name : Cell
  institution : Cell
deriving DecidableEq, Repr

structure SessRow where
  sessionNo : Cell
  type : Cell
  title : Cell
  description : Cell
  presenters : Cell
  abstract : Cell
deriving DecidableEq, Repr

structure EventRow where
  day : Cell
  time : Cell
  venue : Cell
  type : Cell
  content : Cell
  presenters : Cell
  abstract : Cell
deriving DecidableEq, Repr

structure ScrRow where
  slot : Cell
  film_title : Cell
  year : Cell
  duration : Cell
  creatives : Cell
deriving DecidableEq, Repr

/-- The recoverable findings of a reconciliation run, carrying exactly the
data the Python code interpolates into the warning strings. -/
inductive Warning where
  | blankName (excelRow : Nat)
  | droppedEvent (content day time venue session_num : Str)
deriving DecidableEq, Repr

/-- `participant_lookup`: name → institution-or-None. -/
abbrev Registry := List (Str × Option Cell)

/-- Registry plus the `new_participants` report list. -/
structure LookupState where
  reg : Registry
  new_participants : List (Str × Option Str)
deriving DecidableEq, Repr

/-! ## Import: building the participant registry -/

def buildLookupAux (idx : Nat) (reg : Registry) (ws : List Warning) :
    List PartRow → Registry × List Warning
  | [] => (reg, ws)
  | row :: rest =>
    if is_blank row.name then
      buildLookupAux (idx + 1) reg (ws ++ [.blankName (idx + 2)]) rest
    else
      buildLookupAux (idx + 1)
        (setKey (clean_text row.name)
          (if is_blank row.institution then none else some row.institution) reg)
        ws rest

/-- The registry-construction loop over the Participants sheet
(import-from-excel.py lines 81–90). -/
def buildLookup (rows : List PartRow) : Registry × List Warning :=
  buildLookupAux 0 [] [] rows

/-! ## Import: smart_lookup_people -/

/-- One iteration of the loop body of `smart_lookup_people`
(import-from-excel.py lines 104–139): resolve one raw name token, possibly
mutating the registry and the new-participants report. -/
def smartLookupOne (st : LookupState) (name_str : Str) : LookupState × Option Ref :=
  if is_blank (.str name_str) then (st, none)
  else
    let pr := parse_name_with_institution name_str
    let clean_name := clean_text_str pr.1
    if clean_name = [] then (st, none)
    else
      match lookupKey clean_name st.reg with
      | some inst => (st, some ⟨clean_name, inst⟩)
      | none =>
        if is_blank_opt pr.2 then
          ({ reg := setKey clean_name none st.reg,
             new_participants := st.new_participants ++ [(clean_name, none)] },
           some ⟨clean_name, none⟩)
        else
          let i := pr.2.getD []
          ({ reg := setKey clean_name (some (.str i)) st.reg,
             new_participants := st.new_participants ++ [(clean_name, some i)] },
           some ⟨clean_name, some (.str i)⟩)

/-- `smart_lookup_people(names_list)` threading the mutable registry. -/
def smart_lookup_people (st : LookupState) : List Str → LookupState × List Ref
  | [] => (st, [])
  | t :: ts =>
    let p1 := smartLookupOne st t
    let p2 := smart_lookup_people p1.1 ts
    (p2.1, match p1.2 with | some r => r :: p2.2 | none => p2.2)

/-! ## Import: sessions and papers -/

/-- `sessions[current]["papers"].append(paper)`. -/
def appendPaper (sid : Str) (p : Paper) : List (Str × Session) → List (Str × Session)
  | [] => []
  | (k, s) :: rest =>
    if k = sid then (k, { s with papers := s.papers ++ [p] }) :: rest
    else (k, s) :: appendPaper sid p rest

structure SessState where
  sessions : List (Str × Session)
  current_session : Option Str
  lk : LookupState
deriving DecidableEq, Repr

/-- Is the `Session #` cell a Python string starting with `SESSION`? -/
def isHeaderCell : Cell → Bool
  | .str s => "SESSION".toList.isPrefixOf s
  | _ => false

/-- One iteration of the sessions loop (import-from-excel.py lines
151–180), parameterised by the original document's panel descriptions. -/
def sessStep (pd : List (Str × Str)) (st : SessState) (row : SessRow) : SessState :=
  match row.sessionNo with
  | .str s =>
    if "SESSION".toList.isPrefixOf s then
      let sid := strip (replaceSESSION s)
      let presenter_names := parse_names row.presenters
      let d0 := clean_text row.description
      let description :=
        if d0 = [] && pd ≠ [] then clean_text_str ((lookupKey sid pd).getD []) else d0
      let lp := smart_lookup_people st.lk presenter_names
      { sessions := setKey sid
          { type := clean_text row.type, title := clean_text row.title,
            description := description, presenters := lp.2, papers := [] } st.sessions,
        current_session := some sid, lk := lp.1 }
    else sessPaperStep st row
  | _ => sessPaperStep st row
where
  sessPaperStep (st : SessState) (row : SessRow) : SessState :=
    if row.type = .str ("paper".toList) && pyTruthyOptStr st.current_session then
      let lp := smart_lookup_people st.lk (parse_names row.presenters)
      let paper : Paper :=
        { title := clean_text row.title, abstract := clean_text row.abstract, authors := lp.2 }
      { sessions := appendPaper (st.current_session.getD []) paper st.sessions,
        current_session := st.current_session, lk := lp.1 }
    else st

def processSessions (lk : LookupState) (pd : List (Str × Str)) (rows : List SessRow) : SessState :=
  rows.foldl (sessStep pd) ⟨[], none, lk⟩

/-! ## Import: events -/

/-- One iteration of the events loop (import-from-excel.py lines 188–230):
build one event from a row, skipping fully blank rows, and cross-reference
the original document by (time, venue, day), first match wins. -/
def buildEvent (orig_events : List Event) (lk : LookupState) (row : EventRow) :
    LookupState × Option Event :=
  let day_val := clean_text row.day
  let time_val := format_time_value row.time
  let venue_val := clean_text row.venue
  let content_val := clean_text row.content
  let type_val := clean_text row.type
  if day_val = [] && time_val = [] && venue_val = [] && content_val = [] && type_val = [] then
    (lk, none)
  else
    let presenter_names := parse_names row.presenters
    let lp := if presenter_names ≠ [] then smart_lookup_people lk presenter_names else (lk, [])
    let presentersField : Option (List Ref) :=
      if presenter_names ≠ [] then some lp.2 else none
    let abstractField : Option Str :=
      if type_val = "plenary".toList then
        (let a := clean_text row.abstract; if a ≠ [] then some a else none)
      else none
    let m := orig_events.find? (fun o =>
      o.time = time_val && o.venue = venue_val && o.day = day_val)
    (lp.1, some
      { day := day_val, time := time_val, venue := venue_val, content := content_val,
        type := type_val,
        session_num := match m with | some o => o.session_num | none => none,
        affiliation := match m with | some o => o.affiliation | none => none,
        presenters := presentersField, abstract := abstractField,
        films := none, headshot_url := none, logo_url := none })

def processEvents (lk : LookupState) (orig_events : List Event) :
    List EventRow → LookupState × List Event
  | [] => (lk, [])
  | row :: rest =>
    let p1 := buildEvent orig_events lk row
    let p2 := processEvents p1.1 orig_events rest
    (p2.1, match p1.2 with | some e => e :: p2.2 | none => p2.2)

/-- The post-filter (import-from-excel.py lines 232–243): drop events whose
truthy `session_num` is not a key of the rebuilt sessions, one warning per
dropped event. -/
def filterEvents (sessions : List (Str × Session)) : List Event → List Event × List Warning
  | [] => ([], [])
  | e :: rest =>
    let p := filterEvents sessions rest
    if pyTruthyOptStr e.session_num && !(hasKey (e.session_num.getD []) sessions) then
      (p.1, .droppedEvent e.content e.day e.time e.venue (e.session_num.getD []) :: p.2)
    else (e :: p.1, p.2)

/-! ## Import: screenings -/

def appendFilm (slot : Str) (f : Film) : List (Str × List Film) → List (Str × List Film)
  | [] => []
  | (k, fs) :: rest =>
    if k = slot then (k, fs ++ [f]) :: rest else (k, fs) :: appendFilm slot f rest

structure ScrState where
  current_slot : Option Str
  screening_films : List (Str × List Film)
  lk : LookupState
deriving DecidableEq, Repr

/-- `int(cell)` as used on the Year / Duration cells of a film row: blank →
`None`; otherwise Python `int(...)`, which raises (modelled as `none`) on a
non-numeric string. -/
def filmNumField (c : Cell) : Option (Option Int) :=
  if is_blank c then some none else (pyIntCell c).map some

/-- One iteration of the screenings loop (import-from-excel.py lines
253–270).  The unguarded `int(...)` conversions can raise, hence `Except`. -/
def scrStep (st : ScrState) (row : ScrRow) : Except Unit ScrState :=
  if !(is_blank row.slot) then
    let cs := strip (cellToStr row.slot)
    .ok { current_slot := some cs,
          screening_films :=
            if hasKey cs st.screening_films then st.screening_films
            else st.screening_films ++ [(cs, [])],
          lk := st.lk }
  else if pyTruthyOptStr st.current_slot && !(is_blank row.film_title) then
    match filmNumField row.year with
    | none => .error ()
    | some y =>
      match filmNumField row.duration with
      | none => .error ()
      | some dur =>
        let lp := smart_lookup_people st.lk (parse_names row.creatives)
        let film : Film :=
          { title := clean_text row.film_title, year := y, duration := dur,
            creatives := lp.2 }
        .ok { current_slot := st.current_slot,
              screening_films := appendFilm (st.current_slot.getD []) film st.screening_films,
              lk := lp.1 }
  else .ok st

def processScreeningsAux (st : ScrState) : List ScrRow → Except Unit ScrState
  | [] => .ok st
  | row :: rest =>
    match scrStep st row with
    | .error e => .error e
    | .ok st1 => processScreeningsAux st1 rest

def processScreenings (lk : LookupState) (rows : List ScrRow) : Except Unit ScrState :=
  processScreeningsAux ⟨none, [], lk⟩ rows

/-- Attach rebuilt films to a screening event by its slot label
(import-from-excel.py lines 273–277). -/
def attachFilms (sf : List (Str × List Film)) (e : Event) : Event :=
  if e.type = "screening".toList then
    let slot_id := e.day ++ " - ".toList ++ e.time ++ " - ".toList ++ e.venue
    match lookupKey slot_id sf with
    | some fs => { e with films := some fs }
    | none => e
  else e

/-- `panel_descriptions` of the output document: the non-empty descriptions
of the rebuilt sessions, in session order. -/
def rebuiltPanelDescriptions (sessions : List (Str × Session)) : List (Str × Str) :=
  sessions.filterMap (fun p => if p.2.description ≠ [] then some (p.1, p.2.description) else none)

structure Sheets where
  participants : List PartRow
  sessions : List SessRow
  events : List EventRow
  screenings : List ScrRow
deriving DecidableEq, Repr

structure ImportResult where
  doc : Doc
  warnings : List Warning
  final : LookupState
deriving DecidableEq, Repr

/-- The whole reconciliation run of import-from-excel.py `main` after the
input files have been read: registry from the Participants sheet, sessions,
events, event post-filter, screenings, film attachment, output document. -/
def importRun (original : Doc) (sh : Sheets) : Except Unit ImportResult :=
  let bl := buildLookup sh.participants
  let lk0 : LookupState := ⟨bl.1, []⟩
  let s3 := processSessions lk0 original.panel_descriptions sh.sessions
  let pe := processEvents s3.lk original.events sh.events
  let fe := filterEvents s3.sessions pe.2
  match processScreenings pe.1 sh.screenings with
  | .error e => .error e
  | .ok scr =>
    .ok { doc :=
          { conference := original.conference, venues := original.venues,
            events := fe.1.map (attachFilms scr.screening_films),
            sessions := s3.sessions,
            panel_descriptions := rebuiltPanelDescriptions s3.sessions },
          warnings := bl.2 ++ fe.2, final := scr.lk }

/-! ## Export (export-to-excel.py) -/

/-- `add_participant(person_obj)` (export-to-excel.py lines 52–58): keep
the most complete institution — a (Python-)truthy institution overwrites a
currently-falsy one, nothing else is overwritten. -/
def add_participant (reg : Registry) (p : Ref) : Registry :=
  match lookupKey p.name reg with
  | none => setKey p.name p.institution reg
  | some cur =>
    if pyTruthyOptCell p.institution && !(pyTruthyOptCell cur) then
      setKey p.name p.institution reg
    else reg

/-- The participant references contributed by one session, in the export
traversal order: presenters, then each paper's authors. -/
def sessionRefs (s : Session) : List Ref :=
  s.presenters ++ (s.papers.map Paper.authors).flatten

/-- The participant references contributed by one event: presenters, then
(for screenings with films) each film's creatives. -/
def eventRefs (e : Event) : List Ref :=
  e.presenters.getD [] ++
    (if e.type = "screening".toList && e.films.isSome then
      ((e.films.getD []).map Film.creatives).flatten
    else [])

/-- All participant references of a document in the order export-to-excel.py
feeds them to `add_participant`: sessions first (document order), then
events. -/
def docRefs (d : Doc) : List Ref :=
  (d.sessions.map (fun p => sessionRefs p.2)).flatten ++ (d.events.map eventRefs).flatten

/-- The `participants` dict after the extraction loops. -/
def exportRegistry (d : Doc) : Registry :=
  (docRefs d).foldl add_participant []

/-- Lexicographic comparison of Python strings (code-point order). -/
def strLe : Str → Str → Bool
  | [], _ => true
  | _ :: _, [] => false
  | a :: as, b :: bs => if a = b then strLe as bs else decide (a < b)

def insertByName (x : Str × Option Cell) : Registry → Registry
  | [] => [x]
  | y :: ys => if strLe x.1 y.1 then x :: y :: ys else y :: insertByName x ys

/-- `sorted(participants.items())` (keys are distinct, so comparing names
suffices). -/
def sortByName : Registry → Registry
  | [] => []
  | x :: xs => insertByName x (sortByName xs)

/-- Writing an institution value into a sheet cell: Python `None` becomes a
blank (NaN) cell. -/
def instToCell : Option Cell → Cell
  | none => .blank
  | some c => c

/-- The Participants sheet produced by the export. -/
def exportParticipants (d : Doc) : List PartRow :=
  (sortByName (exportRegistry d)).map (fun p => ⟨.str p.1, instToCell p.2⟩)

def joinSemi : List Str → Str
  | [] => []
  | [x] => x
  | x :: xs => x ++ "; ".toList ++ joinSemi xs

def sessionHeaderRow (sid : Str) (s : Session) : SessRow :=
  { sessionNo := .str ("SESSION ".toList ++ sid), type := .str s.type,
    title := .str s.title, description := .str s.description,
    presenters := .str (joinSemi (s.presenters.map Ref.name)), abstract := .str [] }

def paperRow (p : Paper) : SessRow :=
  { sessionNo := .str [], type := .str ("paper".toList), title := .str p.title,
    description := .str [], presenters := .str (joinSemi (p.authors.map Ref.name)),
    abstract := .str p.abstract }

def sessionRowsOf (sid : Str) (s : Session) : List SessRow :=
  sessionHeaderRow sid s :: s.papers.map paperRow

/-- Stable insertion by integer key (equal keys keep their relative order,
as Python `sorted` does). -/
def insertByKey (x : Int × (Str × Session)) :
    List (Int × (Str × Session)) → List (Int × (Str × Session))
  | [] => [x]
  | y :: ys => if x.1 < y.1 then x :: y :: ys else y :: insertByKey x ys

def sortByKey : List (Int × (Str × Session)) → List (Int × (Str × Session))
  | [] => []
  | x :: xs => insertByKey x (sortByKey xs)

/-- `sorted(data['sessions'].items(), key=lambda x: int(x[0]))`: `int(...)`
raises on a non-numeric id, hence `Option`. -/
def sortSessionsByInt (l : List (Str × Session)) : Option (List (Str × Session)) :=
  match l.mapM (fun p => (pyIntStr p.1).map (fun k => (k, p))) with
  | none => none
  | some keyed => some ((sortByKey keyed).map (fun q => q.2))

/-- The Sessions & Papers sheet produced by the export. -/
def exportSessionRows (d : Doc) : Option (List SessRow) :=
  (sortSessionsByInt d.sessions).map
    (fun sorted => (sorted.map (fun p => sessionRowsOf p.1 p.2)).flatten)

/-- The Events sheet row of one event (export-to-excel.py lines 121–134). -/
def eventRowOf (e : Event) : EventRow :=
  { day := .str e.day, time := .str e.time, venue := .str e.venue, type := .str e.type,
    content := .str e.content,
    presenters := .str (match e.presenters with
      | some ps => joinSemi (ps.map Ref.name)
      | none => []),
    abstract := .str (if e.type = "plenary".toList then e.abstract.getD [] else []) }

def slotLabel (e : Event) : Str :=
  e.day ++ " - ".toList ++ e.time ++ " - ".toList ++ e.venue

def filmRowOf (f : Film) : ScrRow :=
  { slot := .str [], film_title := .str f.title,
    year := match f.year with | some n => .num n | none => .blank,
    duration := match f.duration with | some n => .num n | none => .blank,
    creatives := .str (joinSemi (f.creatives.map Ref.name)) }

/-- The Screenings sheet rows of one event (export-to-excel.py lines
143–162): a slot row for every screening event, then one row per film. -/
def screeningRowsOf (e : Event) : List ScrRow :=
  if e.type = "screening".toList then
    { slot := .str (slotLabel e), film_title := .str [], year := .str [],
      duration := .str [], creatives := .str [] } :: (e.films.getD []).map filmRowOf
  else []

/-- The four sheets produced by export-to-excel.py `main` (fails where
Python would raise, i.e. on a non-numeric session id). -/
def exportSheets (d : Doc) : Option Sheets :=
  (exportSessionRows d).map (fun sr =>
    { participants := exportParticipants d, sessions := sr,
      events := d.events.map eventRowOf,
      screenings := (d.events.map screeningRowsOf).flatten })

/-- Extract a document to the four sheets and reconcile them back with no
manual edits. -/
def roundTrip (d : Doc) : Except Unit ImportResult :=
  match exportSheets d with
  | none => .error ()
  | some sh => importRun d sh

/-! ## Association list lemmas -/

theorem lookupKey_setKey_self {α : Type} (k : Str) (v : α) (l : List (Str × α)) :
    lookupKey k (setKey k v l) = some v := by
  induction l with
  | nil => simp [setKey, lookupKey]
  | cons h t ih =>
    obtain ⟨k1, v1⟩ := h
    by_cases hk : k1 = k
    · simp [setKey, hk, lookupKey]
    · simp [setKey, hk, lookupKey, ih]

theorem lookupKey_setKey_ne {α : Type} {n k : Str} (hne : n ≠ k) (v : α)
    (l : List (Str × α)) : lookupKey n (setKey k v l) = lookupKey n l := by
  have hkn : k ≠ n := fun h => hne h.symm
  induction l with
  | nil => simp [setKey, lookupKey, hkn]
  | cons h t ih =>
    obtain ⟨k1, v1⟩ := h
    by_cases hk : k1 = k
    · subst hk
      simp [setKey, lookupKey, hkn]
    · simp [setKey, hk, lookupKey, ih]

/-! ## Soundness of the inline-institution scan (claim C5) -/

theorem goodTail_decomp {rest : Str} (h : goodTail rest = true) :
    rest = rest.dropLast ++ [')'] ∧ rest.dropLast ≠ [] ∧ ')' ∉ rest.dropLast := by
  simp only [goodTail, Bool.and_eq_true, decide_eq_true_eq] at h
  obtain ⟨⟨hlen, hlast⟩, hmem⟩ := h
  have hne : rest ≠ [] := by
    intro h0
    subst h0
    simp at hlen
  have hlast2 : rest.getLast hne = ')' := by
    have := List.getLast?_eq_getLast rest hne
    rw [this] at hlast
    exact Option.some_injective _ hlast
  refine ⟨?_, ?_, hmem⟩
  · conv_lhs => rw [← List.dropLast_append_getLast hne]
    rw [hlast2]
  · have := List.length_dropLast rest
    intro h0
    rw [h0] at this
    simp at this
    omega

theorem scanParen_sound {l : Str} : ∀ {pre p inside : Str},
    scanParen pre l = some (p, inside) →
    pre ++ l = p ++ '(' :: (inside ++ [')']) ∧ inside ≠ [] ∧ ')' ∉ inside ∧
      ∃ mid, p = pre ++ mid := by
  induction l with
  | nil => intro pre p inside h; simp [scanParen] at h
  | cons c rest ih =>
    intro pre p inside h
    simp only [scanParen] at h
    by_cases hc : (c = '(' && goodTail rest) = true
    · rw [if_pos hc] at h
      simp only [Option.some_inj, Prod.mk.injEq] at h
      obtain ⟨hp, hi⟩ := h
      simp only [Bool.and_eq_true, decide_eq_true_eq] at hc
      obtain ⟨hcpar, hgt⟩ := hc
      obtain ⟨hdec, hne, hmem⟩ := goodTail_decomp hgt
      subst hp hcpar hi
      refine ⟨?_, hne, hmem, [], by simp⟩
      conv_lhs => rw [hdec]
    · rw [if_neg hc] at h
      obtain ⟨h1, h2, h3, mid, hmid⟩ := ih h
      refine ⟨?_, h2, h3, [c] ++ mid, by simp [hmid]⟩
      rw [← h1]
      simp

/-- The regex of `parse_name_with_institution` accepts an inline
institution only when one parenthesized, `)`-free, non-empty group ends the
stripped string, the (non-empty) name being everything before it. -/
theorem parse_inline_decomp (s n i : Str)
    (h : parse_name_with_institution s = (n, some i)) :
    ∃ pre raw, strip s = pre ++ '(' :: (raw ++ [')']) ∧ n = strip pre ∧
      i = strip raw ∧ raw ≠ [] ∧ ')' ∉ raw ∧ pre ≠ [] := by
  unfold parse_name_with_institution at h
  by_cases hb : is_blank (.str s) = true
  · simp [hb] at h
  · rw [if_neg hb] at h
    split at h
    · simp at h
    · rename_i c rest hss
      split at h
      · rename_i pr pre inside hsp
        simp only [Prod.mk.injEq, Option.some_inj] at h
        obtain ⟨hn, hi⟩ := h
        obtain ⟨h1, h2, h3, mid, hmid⟩ := scanParen_sound hsp
        refine ⟨pre, inside, ?_, hn.symm, hi.symm, h2, h3, ?_⟩
        · rw [hss]
          simpa using h1
        · rw [hmid]
          simp
      · simp at h

/-- Claim C5: a trailing parenthetical is an inline institution annotation
only when it is the entire remainder of the string after the name; the
three spec examples behave as stated. -/
theorem C5_inline_annotation :
    parse_name_with_institution ("Jane Doe (MIT)".toList) =
      ("Jane Doe".toList, some ("MIT".toList)) ∧
    parse_name_with_institution ("Jane Doe".toList) = ("Jane Doe".toList, none) ∧
    parse_name_with_institution ("Dr. Jane (Doe) Smith".toList) =
      ("Dr. Jane (Doe) Smith".toList, none) ∧
    (∀ s n i : Str, parse_name_with_institution s = (n, some i) →
      ∃ pre raw, strip s = pre ++ '(' :: (raw ++ [')']) ∧ n = strip pre ∧
        i = strip raw ∧ raw ≠ [] ∧ ')' ∉ raw ∧ pre ≠ []) := by
  refine ⟨by decide, by decide, by decide, parse_inline_decomp⟩

/-- Claim C5, witness: the soundness direction applied to the concrete
token of the spec example. -/
theorem C5_inline_annotation_witness :
    ∃ pre raw, strip ("Jane Doe (MIT)".toList) = pre ++ '(' :: (raw ++ [')']) ∧
      "Jane Doe".toList = strip pre ∧ "MIT".toList = strip raw ∧ raw ≠ [] ∧
      ')' ∉ raw ∧ pre ≠ [] :=
  C5_inline_annotation.2.2.2 ("Jane Doe (MIT)".toList) ("Jane Doe".toList)
    ("MIT".toList) (by decide)

/-! ## Time formatting (claim C8) -/

theorem natDigitsAux_length : ∀ (fuel n k : Nat), n < fuel → n < 10 ^ k → 1 ≤ k →
    (natDigitsAux fuel n).length ≤ k := by
  intro fuel
  induction fuel with
  | zero => intro n k h; omega
  | succ f ih =>
    intro n k hfuel hpow hk
    by_cases h10 : n < 10
    · simp only [natDigitsAux, if_pos h10, List.length_singleton]
      omega
    · simp only [natDigitsAux, if_neg h10, List.length_append, List.length_singleton]
      have hk2 : 2 ≤ k := by
        by_contra hcon
        have hk1 : k = 1 := by omega
        subst hk1
        simp only [pow_one] at hpow
        omega
      have h1 : n / 10 < f := by
        have := Nat.div_lt_self (by omega : 0 < n) (by omega : 1 < 10)
        omega
      have h2 : n / 10 < 10 ^ (k - 1) := by
        have hsplit : 10 ^ k = 10 ^ (k - 1) * 10 := by
          rw [← pow_succ]
          congr 1
          omega
        have hlt : n < 10 * 10 ^ (k - 1) := by omega
        exact Nat.div_lt_of_lt_mul hlt
      have := ih (n / 10) (k - 1) h1 h2 (by omega)
      omega

theorem natToStr_length {n k : Nat} (hpow : n < 10 ^ k) (hk : 1 ≤ k) :
    (natToStr n).length ≤ k :=
  natDigitsAux_length (n + 1) n k (by omega) hpow hk

theorem leftPad_length (p : Char) (w : Nat) (s : Str) (h : s.length ≤ w) :
    (leftPad p w s).length = w := by
  simp [leftPad]
  omega

/-- Claim C8, counterexample: a numeric Time cell holding `12345` is not
canonicalized to a 4-character string — it passes through as the 5-character
string `12345`. -/
theorem C8_counterexample :
    format_time_value (.num 12345) = "12345".toList ∧
    (format_time_value (.num 12345)).length = 5 := by
  constructor <;> decide

/-- Claim C8 (amended): a blank Time cell becomes the empty string; a
numeric cell in [0, 10000) becomes the 4-character zero-padded decimal (a
numeric cell is always formatted as the zero-padded decimal, which exceeds
4 characters for values ≥ 10000); a cell whose stripped text is a digit
string of at most 4 characters is zero-padded to exactly 4 characters; all
other non-blank text passes through with surrounding whitespace stripped. -/
theorem C8_time_format :
    (∀ c : Cell, is_blank c = true → format_time_value c = []) ∧
    (∀ n : Int, 0 ≤ n → format_time_value (.num n) = zfill4 (natToStr n.natAbs)) ∧
    (∀ n : Int, 0 ≤ n → n < 10000 → (format_time_value (.num n)).length = 4) ∧
    (∀ s : Str, isDigitStr (strip s) = true → (strip s).length ≤ 4 →
      format_time_value (.str s) = zfill4 (strip s) ∧
      (format_time_value (.str s)).length = 4) ∧
    (∀ s : Str, is_blank (.str s) = false →
      (isDigitStr (strip s) = true → 4 < (strip s).length) →
      format_time_value (.str s) = strip s) := by
  refine ⟨?_, ?_, ?_, ?_, ?_⟩
  · intro c hc
    simp [format_time_value, hc]
  · intro n hn
    have : is_blank (.num n) = false := rfl
    simp only [format_time_value, this, Bool.false_eq_true, if_false, formatInt04]
    rw [if_neg (by omega : ¬ n < 0)]
    rfl
  · intro n hn hlt
    have h0 : is_blank (.num n) = false := rfl
    simp only [format_time_value, h0, Bool.false_eq_true, if_false, formatInt04]
    rw [if_neg (by omega : ¬ n < 0)]
    apply leftPad_length
    have : n.natAbs < 10 ^ 4 := by
      have : (10 : Nat) ^ 4 = 10000 := by norm_num
      omega
    exact natToStr_length this (by omega)
  · intro s hd hlen
    have hb : is_blank (.str s) = false := by
      simp only [is_blank, decide_eq_true_eq]
      simp only [isDigitStr, Bool.and_eq_true, decide_eq_true_eq] at hd
      exact decide_eq_false hd.1
    constructor
    · simp only [format_time_value, hb, Bool.false_eq_true, if_false]
      rw [if_pos]
      simp [hd, hlen]
    · simp only [format_time_value, hb, Bool.false_eq_true, if_false]
      rw [if_pos (by simp [hd, hlen])]
      exact leftPad_length '0' 4 (strip s) hlen
  · intro s hb hlong
    simp only [format_time_value, hb, Bool.false_eq_true, if_false]
    rw [if_neg]
    intro hcontra
    simp only [Bool.and_eq_true, decide_eq_true_eq] at hcontra
    have := hlong hcontra.1
    omega

/-- Claim C8, witness: the amended statement applied to the three spec
examples 930, 1400 and TBD, and to a blank cell. -/
theorem C8_time_format_witness :
    (format_time_value (.num 930)).length = 4 ∧
    format_time_value (.str ("1400".toList)) = zfill4 (strip ("1400".toList)) ∧
    format_time_value (.str ("TBD".toList)) = strip ("TBD".toList) ∧
    format_time_value .blank = [] :=
  ⟨C8_time_format.2.2.1 930 (by decide) (by decide),
   (C8_time_format.2.2.2.1 ("1400".toList) (by decide) (by decide)).1,
   C8_time_format.2.2.2.2 ("TBD".toList) (by decide) (by decide),
   C8_time_format.1 .blank (by decide)⟩

/-! ## Export registry merge (claim C3) -/

/-- The institution observations a sequence of references makes for one
name, in order. -/
def instObservations (obs : List Ref) (n : Str) : List (Option Cell) :=
  obs.filterMap (fun r => if r.name = n then some r.institution else none)

/-- Modelled from the spec: the merge value claim C3 ascribes to the
registry builder — the first non-null institution observed for the name,
null if none is ever observed.  For comparison with the code. -/
def specFirstNonNull (l : List (Option Cell)) : Option Cell :=
  (l.find? Option.isSome).getD none

/-- The merge value the code actually computes: the first Python-truthy
institution observed, or, when no observation is truthy, the very first
observation. -/
def firstTruthyElse (l : List (Option Cell)) : Option Cell :=
  (l.find? pyTruthyOptCell).getD l.headI

/-- The overwrite rule of one `add_participant` step on an existing entry. -/
def updInst (v i : Option Cell) : Option Cell :=
  if pyTruthyOptCell i && !(pyTruthyOptCell v) then i else v

theorem lookup_add_participant_self (reg : Registry) (r : Ref) :
    lookupKey r.name (add_participant reg r) =
      some (match lookupKey r.name reg with
            | none => r.institution
            | some v => updInst v r.institution) := by
  unfold add_participant
  cases h : lookupKey r.name reg with
  | none => simp [h, lookupKey_setKey_self]
  | some v =>
    simp only [h, updInst]
    by_cases hc : (pyTruthyOptCell r.institution && !(pyTruthyOptCell v)) = true
    · simp [hc, lookupKey_setKey_self]
    · simp [hc, h]

theorem lookup_add_participant_ne {m : Str} {r : Ref} (hne : m ≠ r.name)
    (reg : Registry) : lookupKey m (add_participant reg r) = lookupKey m reg := by
  unfold add_participant
  cases h : lookupKey r.name reg with
  | none => simp [lookupKey_setKey_ne hne]
  | some v =>
    by_cases hc : (pyTruthyOptCell r.institution && !(pyTruthyOptCell v)) = true
    · simp [hc, lookupKey_setKey_ne hne]
    · simp [hc]

theorem lookup_foldl_add_participant (obs : List Ref) : ∀ (reg : Registry) (n : Str),
    lookupKey n (obs.foldl add_participant reg) =
      match lookupKey n reg, instObservations obs n with
      | none, [] => none
      | none, i :: is => some (is.foldl updInst i)
      | some v, is => some (is.foldl updInst v) := by
  induction obs with
  | nil =>
    intro reg n
    cases h : lookupKey n reg <;> simp [instObservations, h]
  | cons r rest ih =>
    intro reg n
    simp only [List.foldl_cons]
    by_cases hname : r.name = n
    · subst hname
      rw [ih]
      rw [lookup_add_participant_self]
      have hobs : instObservations (r :: rest) r.name =
          r.institution :: instObservations rest r.name := by
        simp [instObservations]
      rw [hobs]
      cases h : lookupKey r.name reg with
      | none => simp [h]
      | some v => simp [h, List.foldl_cons]
    · rw [ih]
      rw [lookup_add_participant_ne (fun he => hname he.symm)]
      have hobs : instObservations (r :: rest) n = instObservations rest n := by
        simp [instObservations, hname]
      rw [hobs]

theorem foldl_updInst_truthy {v : Option Cell} (h : pyTruthyOptCell v = true) :
    ∀ is : List (Option Cell), is.foldl updInst v = v := by
  intro is
  induction is with
  | nil => rfl
  | cons i rest ih =>
    simp only [List.foldl_cons]
    have : updInst v i = v := by simp [updInst, h]
    rw [this, ih]

theorem foldl_updInst_not_truthy :
    ∀ (is : List (Option Cell)) (v : Option Cell), pyTruthyOptCell v = false →
      is.foldl updInst v = (is.find? pyTruthyOptCell).getD v := by
  intro is
  induction is with
  | nil => intro v h; simp
  | cons i rest ih =>
    intro v h
    simp only [List.foldl_cons]
    by_cases hi : pyTruthyOptCell i = true
    · have h1 : updInst v i = i := by simp [updInst, h, hi]
      rw [h1, List.find?_cons_of_pos _ hi, foldl_updInst_truthy hi]
      rfl
    · have h1 : updInst v i = v := by simp [updInst, hi]
      rw [h1, List.find?_cons_of_neg _ hi, ih v h]

def obsC3 : List Ref := [⟨"A".toList, none⟩, ⟨"A".toList, some (.str [])⟩]

/-- Claim C3, counterexample: feeding the observations
`[(A, null), (A, "")]` to `add_participant` leaves institution null for A,
although the first non-null institution observed for A is the (non-null)
empty string — a later non-null observation does not overwrite a
currently-null value when it is an empty string. -/
theorem C3_counterexample :
    instObservations obsC3 ("A".toList) = [none, some (.str [])] ∧
    specFirstNonNull (instObservations obsC3 ("A".toList)) = some (Cell.str []) ∧
    lookupKey ("A".toList) (obsC3.foldl add_participant []) = some none := by
  decide

/-- Claim C3 (amended): for any sequence of (name, institution)
observations fed to the extractor's registry builder, a name never observed
is absent from the registry, and the final institution recorded for an
observed name is the first Python-truthy (non-null and non-empty)
institution observed for it — or, when no truthy institution is ever
observed, the institution of the very first observation.  In particular the
first occurrence sets the value, a later truthy institution overwrites a
currently-falsy one, and a later null never overwrites a non-null value. -/
theorem C3_registry_merge :
    (∀ (obs : List Ref) (n : Str), instObservations obs n = [] →
      lookupKey n (obs.foldl add_participant []) = none) ∧
    (∀ (obs : List Ref) (n : Str), instObservations obs n ≠ [] →
      lookupKey n (obs.foldl add_participant []) =
        some (firstTruthyElse (instObservations obs n))) := by
  constructor
  · intro obs n hobs
    rw [lookup_foldl_add_participant]
    simp only [lookupKey, hobs]
  · intro obs n hobs
    rw [lookup_foldl_add_participant]
    rcases hl : instObservations obs n with _ | ⟨i, is⟩
    · exact absurd hl hobs
    · simp only [lookupKey]
      congr 1
      by_cases hi : pyTruthyOptCell i = true
      · rw [foldl_updInst_truthy hi is]
        simp [firstTruthyElse, List.find?_cons_of_pos _ hi]
      · have hif : pyTruthyOptCell i = false := by
          exact Bool.eq_false_iff.mpr hi
        rw [foldl_updInst_not_truthy is i hif]
        simp [firstTruthyElse, List.find?_cons_of_neg _ hi]

def obsW3 : List Ref :=
  [⟨"A".toList, none⟩, ⟨"A".toList, some (.str ("MIT".toList))⟩, ⟨"A".toList, none⟩]

/-- Claim C3, witness: the amended merge rule applied to the observation
sequence `[(A, null), (A, MIT), (A, null)]`, whose final value is MIT. -/
theorem C3_registry_merge_witness :
    instObservations obsW3 ("A".toList) ≠ [] ∧
    lookupKey ("A".toList) (obsW3.foldl add_participant []) =
      some (firstTruthyElse (instObservations obsW3 ("A".toList))) :=
  ⟨by decide, C3_registry_merge.2 obsW3 ("A".toList) (by decide)⟩

/-! ## Resolution of one name token (claim C4) -/

theorem smartLookupOne_found {st : LookupState} {tok n : Str} {inl : Option Str}
    {v : Option Cell}
    (hb : is_blank (.str tok) = false)
    (hp : parse_name_with_institution tok = (n, inl))
    (hcn : clean_text_str n ≠ [])
    (hl : lookupKey (clean_text_str n) st.reg = some v) :
    smartLookupOne st tok = (st, some ⟨clean_text_str n, v⟩) := by
  unfold smartLookupOne
  simp only [hb, Bool.false_eq_true, if_false, hp, hl]
  rw [if_neg hcn]

theorem smartLookupOne_new_inline {st : LookupState} {tok n i : Str}
    (hb : is_blank (.str tok) = false)
    (hp : parse_name_with_institution tok = (n, some i))
    (hcn : clean_text_str n ≠ [])
    (hl : lookupKey (clean_text_str n) st.reg = none)
    (hi : strip i ≠ []) :
    smartLookupOne st tok =
      ({ reg := setKey (clean_text_str n) (some (.str i)) st.reg,
         new_participants := st.new_participants ++ [(clean_text_str n, some i)] },
       some ⟨clean_text_str n, some (.str i)⟩) := by
  unfold smartLookupOne
  simp only [hb, Bool.false_eq_true, if_false, hp, hl]
  rw [if_neg hcn]
  have hblank : is_blank_opt (some i) = false := by
    simp [is_blank_opt, hi]
  simp [hblank]

theorem smartLookupOne_new_plain {st : LookupState} {tok n : Str} {inl : Option Str}
    (hb : is_blank (.str tok) = false)
    (hp : parse_name_with_institution tok = (n, inl))
    (hcn : clean_text_str n ≠ [])
    (hl : lookupKey (clean_text_str n) st.reg = none)
    (hi : is_blank_opt inl = true) :
    smartLookupOne st tok =
      ({ reg := setKey (clean_text_str n) none st.reg,
         new_participants := st.new_participants ++ [(clean_text_str n, none)] },
       some ⟨clean_text_str n, none⟩) := by
  unfold smartLookupOne
  simp only [hb, Bool.false_eq_true, if_false, hp, hl]
  rw [if_neg hcn]
  simp [hl, hi]

/-- Claim C4: a token whose trimmed name is already registered resolves to
the registry institution verbatim, leaving the state untouched and
discarding any inline parenthetical; consequently, when the same new name
occurs twice with conflicting inline institutions, the first occurrence
registers its institution and the second resolves to it, ignoring its own
inline value. -/
theorem C4_registry_precedence :
    (∀ (st : LookupState) (tok n : Str) (inl : Option Str) (v : Option Cell),
      is_blank (.str tok) = false →
      parse_name_with_institution tok = (n, inl) →
      clean_text_str n ≠ [] →
      lookupKey (clean_text_str n) st.reg = some v →
      smartLookupOne st tok = (st, some ⟨clean_text_str n, v⟩)) ∧
    (∀ (st : LookupState) (t1 t2 n i1 i2 : Str),
      is_blank (.str t1) = false → is_blank (.str t2) = false →
      parse_name_with_institution t1 = (n, some i1) →
      parse_name_with_institution t2 = (n, some i2) →
      clean_text_str n ≠ [] →
      strip i1 ≠ [] →
      lookupKey (clean_text_str n) st.reg = none →
      (smart_lookup_people st [t1, t2]).2 =
        [⟨clean_text_str n, some (.str i1)⟩, ⟨clean_text_str n, some (.str i1)⟩]) := by
  constructor
  · intro st tok n inl v hb hp hcn hl
    exact smartLookupOne_found hb hp hcn hl
  · intro st t1 t2 n i1 i2 hb1 hb2 hp1 hp2 hcn hi1 hl
    have h1 := smartLookupOne_new_inline hb1 hp1 hcn hl hi1
    have h2 := @smartLookupOne_found
        { reg := setKey (clean_text_str n) (some (.str i1)) st.reg,
          new_participants := st.new_participants ++ [(clean_text_str n, some i1)] }
        _ _ _ _
      hb2 hp2 hcn (by simpa using lookupKey_setKey_self (clean_text_str n) (some (.str i1)) st.reg)
    simp only [smart_lookup_people, h1, h2]

/-- Claim C4, witness: the spec example — with Jane Doe registered at MIT,
the token Jane Doe (Harvard) resolves to MIT; and a fresh name Jane seen as
Jane (MIT) then Jane (Harvard) resolves both times to MIT. -/
theorem C4_registry_precedence_witness :
    smartLookupOne ⟨[("Jane Doe".toList, some (.str ("MIT".toList)))], []⟩
        ("Jane Doe (Harvard)".toList) =
      (⟨[("Jane Doe".toList, some (.str ("MIT".toList)))], []⟩,
       some ⟨clean_text_str ("Jane Doe".toList), some (.str ("MIT".toList))⟩) ∧
    (smart_lookup_people ⟨[], []⟩ ["Jane (MIT)".toList, "Jane (Harvard)".toList]).2 =
      [⟨clean_text_str ("Jane".toList), some (.str ("MIT".toList))⟩,
       ⟨clean_text_str ("Jane".toList), some (.str ("MIT".toList))⟩] :=
  ⟨C4_registry_precedence.1 ⟨[("Jane Doe".toList, some (.str ("MIT".toList)))], []⟩
      ("Jane Doe (Harvard)".toList) ("Jane Doe".toList) (some ("Harvard".toList))
      (some (.str ("MIT".toList))) (by decide) (by decide) (by decide) (by decide),
   C4_registry_precedence.2 ⟨[], []⟩ ("Jane (MIT)".toList) ("Jane (Harvard)".toList)
      ("Jane".toList) ("MIT".toList) ("Harvard".toList)
      (by decide) (by decide) (by decide) (by decide) (by decide) (by decide) (by decide)⟩

/-! ## Event post-filter (claim C7) -/

/-- The condition under which the post-filter drops an event. -/
def dropCond (sessions : List (Str × Session)) (e : Event) : Bool :=
  pyTruthyOptStr e.session_num && !(hasKey (e.session_num.getD []) sessions)

def evC7 : Event :=
  { day := "Mon".toList, time := "0900".toList, venue := "H".toList,
    content := "X".toList, type := "talk".toList, session_num := some [],
    affiliation := none, presenters := none, abstract := none, films := none,
    headshot_url := none, logo_url := none }

/-- Claim C7, counterexample: an event whose session_num is the non-null
empty string, while the rebuilt session set has no keys at all, is retained
and produces no warning — although the claim requires every event with a
non-null session_num that is not a key of the session set to be dropped
with one warning. -/
theorem C7_counterexample :
    evC7.session_num = some [] ∧
    hasKey ([] : Str) ([] : List (Str × Session)) = false ∧
    filterEvents [] [evC7] = ([evC7], []) := by
  decide

theorem filterEvents_eq (sessions : List (Str × Session)) (evs : List Event) :
    filterEvents sessions evs =
      (evs.filter (fun e => !(dropCond sessions e)),
       evs.filterMap (fun e =>
         if dropCond sessions e then
           some (.droppedEvent e.content e.day e.time e.venue (e.session_num.getD []))
         else none)) := by
  induction evs with
  | nil => rfl
  | cons e rest ih =>
    simp only [filterEvents, ih, List.filter_cons, List.filterMap_cons]
    by_cases hd : dropCond sessions e = true
    · rw [if_pos hd, hd]
      simp
      have hd0 : (pyTruthyOptStr e.session_num &&
          !(hasKey (e.session_num.getD []) sessions)) = true := hd
      simp only [Bool.and_eq_true, Bool.not_eq_true'] at hd0
      exact hd0
    · rw [if_neg hd, Bool.eq_false_iff.mpr hd]
      simp
      intro hpt
      have hd0 : (pyTruthyOptStr e.session_num &&
          !(hasKey (e.session_num.getD []) sessions)) = false :=
        Bool.eq_false_iff.mpr hd
      simp [hpt] at hd0
      exact hd0

/-- Claim C7 (amended): after reconstruction and cross-referencing, an
event is dropped if and only if its session_num is a non-null, non-empty
string that is not a key of the rebuilt session set; each dropped event
generates exactly one warning identifying it by content, day, time and
venue; and the drop condition is independent of the event's films and type,
so retention never depends on film presence (screenings with a truthy
missing session_num are, however, dropped like any other event). -/
theorem C7_event_drop :
    (∀ (sessions : List (Str × Session)) (evs : List Event),
      filterEvents sessions evs =
        (evs.filter (fun e => !(dropCond sessions e)),
         evs.filterMap (fun e =>
           if dropCond sessions e then
             some (.droppedEvent e.content e.day e.time e.venue (e.session_num.getD []))
           else none))) ∧
    (∀ (sessions : List (Str × Session)) (e : Event),
      dropCond sessions e = true ↔
        ∃ sid, e.session_num = some sid ∧ sid ≠ [] ∧ hasKey sid sessions = false) ∧
    (∀ (sessions : List (Str × Session)) (e : Event) (fs : Option (List Film)) (t : Str),
      dropCond sessions { e with films := fs, type := t } = dropCond sessions e) := by
  refine ⟨filterEvents_eq, ?_, ?_⟩
  · intro sessions e
    cases hs : e.session_num with
    | none => simp [dropCond, hs, pyTruthyOptStr]
    | some sid =>
      simp only [dropCond, hs, pyTruthyOptStr, Option.getD_some, Bool.and_eq_true,
        Bool.not_eq_true', ne_eq, decide_eq_true_eq]
      constructor
      · rintro ⟨h1, h2⟩
        exact ⟨sid, rfl, h1, h2⟩
      · rintro ⟨sid2, heq, h1, h2⟩
        cases heq
        exact ⟨h1, h2⟩
  · intro sessions e fs t
    rfl

/-! ## Session grouping (claim C6) -/

theorem lookupKey_appendPaper_self {sid : Str} (p : Paper) {l : List (Str × Session)}
    {sess : Session} (h : lookupKey sid l = some sess) :
    lookupKey sid (appendPaper sid p l) =
      some { sess with papers := sess.papers ++ [p] } := by
  induction l with
  | nil => simp [lookupKey] at h
  | cons hd t ih =>
    obtain ⟨k, s⟩ := hd
    by_cases hk : k = sid
    · subst hk
      have h2 : s = sess := by
        simpa [lookupKey] using h
      subst h2
      simp [appendPaper, lookupKey]
    · simp only [lookupKey, if_neg hk] at h
      simp [appendPaper, hk, lookupKey, ih h]

def rowS6 : SessRow :=
  { sessionNo := .str ("SESSION".toList), type := .str ("panel".toList),
    title := .str ("T".toList), description := .blank, presenters := .blank,
    abstract := .blank }

def rowP6 : SessRow :=
  { sessionNo := .blank, type := .str ("paper".toList), title := .str ("P".toList),
    description := .blank, presenters := .blank, abstract := .blank }

/-- Claim C6, counterexample: a Session # cell holding the bare string
SESSION acts as a header — it creates a session with the empty id and makes
it current — yet the paper row that follows is appended nowhere, although
the claim promises that a paper row is appended while a session is current
(and, under the stricter reading that a bare SESSION does not match the
pattern SESSION followed by an id, no session should have been created at
all). -/
theorem C6_counterexample :
    (processSessions ⟨[], []⟩ [] [rowS6, rowP6]).current_session = some [] ∧
    (processSessions ⟨[], []⟩ [] [rowS6, rowP6]).sessions =
      [([], { type := "panel".toList, title := "T".toList, description := [],
              presenters := [], papers := [] })] := by
  decide

def hdrRow6 (sid : Str) : SessRow :=
  { sessionNo := .str ("SESSION ".toList ++ sid), type := .str ("panel".toList),
    title := .str ("T".toList), description := .blank, presenters := .blank,
    abstract := .blank }

def papRow6 (t : Str) : SessRow :=
  { sessionNo := .str [], type := .str ("paper".toList), title := .str t,
    description := .blank, presenters := .blank, abstract := .blank }

/-- Claim C6 (amended): in the single pass over the Sessions & Papers
sheet, a row acts as a session header iff its Session # cell is a string
starting with SESSION (the id being the remainder after deleting SESSION
occurrences and stripping, possibly empty); a header creates a new session
— description falling back to the original document's stored description
for that id whenever the sheet cell is blank and the original stored any —
and makes its id current; a row with Type exactly the string paper appends
a paper to the current session provided the current id is non-empty; any
other row, and any paper row before the first header or after a header with
an empty id, leaves the state untouched; the concrete five-row example
reconstructs sessions 1 (two papers) and 2 (one paper). -/
theorem C6_session_grouping :
    (∀ (pd : List (Str × Str)) (st : SessState) (row : SessRow),
      isHeaderCell row.sessionNo = false → row.type ≠ .str ("paper".toList) →
      sessStep pd st row = st) ∧
    (∀ (pd : List (Str × Str)) (st : SessState) (row : SessRow),
      isHeaderCell row.sessionNo = false → pyTruthyOptStr st.current_session = false →
      sessStep pd st row = st) ∧
    (∀ (pd : List (Str × Str)) (st : SessState) (row : SessRow) (s : Str),
      row.sessionNo = .str s → "SESSION".toList.isPrefixOf s = true →
      sessStep pd st row =
        { sessions := setKey (strip (replaceSESSION s))
            { type := clean_text row.type, title := clean_text row.title,
              description :=
                if clean_text row.description = [] && pd ≠ [] then
                  clean_text_str ((lookupKey (strip (replaceSESSION s)) pd).getD [])
                else clean_text row.description,
              presenters := (smart_lookup_people st.lk (parse_names row.presenters)).2,
              papers := [] } st.sessions,
          current_session := some (strip (replaceSESSION s)),
          lk := (smart_lookup_people st.lk (parse_names row.presenters)).1 }) ∧
    (∀ (pd : List (Str × Str)) (st : SessState) (row : SessRow) (sid : Str)
        (sess : Session),
      isHeaderCell row.sessionNo = false → row.type = .str ("paper".toList) →
      st.current_session = some sid → sid ≠ [] →
      lookupKey sid st.sessions = some sess →
      (sessStep pd st row).current_session = some sid ∧
      lookupKey sid (sessStep pd st row).sessions =
        some { sess with papers := sess.papers ++
          [{ title := clean_text row.title, abstract := clean_text row.abstract,
             authors := (smart_lookup_people st.lk (parse_names row.presenters)).2 }] }) ∧
    ((processSessions ⟨[], []⟩ []
        [hdrRow6 ("1".toList), papRow6 ("A".toList), papRow6 ("B".toList),
         hdrRow6 ("2".toList), papRow6 ("C".toList)]).sessions.map
      (fun q => (q.1, q.2.papers.map Paper.title)) =
      [("1".toList, ["A".toList, "B".toList]), ("2".toList, ["C".toList])]) := by
  refine ⟨?_, ?_, ?_, ?_, by decide⟩
  · intro pd st row hh hp
    unfold sessStep
    cases hc : row.sessionNo with
    | str s =>
      rw [hc] at hh
      simp only [isHeaderCell] at hh
      simp only [hh, Bool.false_eq_true, if_false, sessStep.sessPaperStep]
      rw [if_neg]
      simp only [Bool.and_eq_true, decide_eq_true_eq]
      rintro ⟨h1, h2⟩
      exact hp h1
    | blank =>
      simp only [sessStep.sessPaperStep]
      rw [if_neg]
      simp only [Bool.and_eq_true, decide_eq_true_eq]
      rintro ⟨h1, h2⟩
      exact hp h1
    | num n =>
      simp only [sessStep.sessPaperStep]
      rw [if_neg]
      simp only [Bool.and_eq_true, decide_eq_true_eq]
      rintro ⟨h1, h2⟩
      exact hp h1
  · intro pd st row hh ht
    unfold sessStep
    cases hc : row.sessionNo with
    | str s =>
      rw [hc] at hh
      simp only [isHeaderCell] at hh
      simp only [hh, Bool.false_eq_true, if_false, sessStep.sessPaperStep]
      rw [if_neg]
      simp [ht]
    | blank =>
      simp only [sessStep.sessPaperStep]
      rw [if_neg]
      simp [ht]
    | num n =>
      simp only [sessStep.sessPaperStep]
      rw [if_neg]
      simp [ht]
  · intro pd st row s hc hpre
    unfold sessStep
    rw [hc]
    simp [hpre]
    intro hcon
    exact absurd (by simpa using hpre) hcon
  · intro pd st row sid sess hh ht hcur hsid hl
    have hstep : sessStep pd st row =
        { sessions := appendPaper sid
            { title := clean_text row.title, abstract := clean_text row.abstract,
              authors := (smart_lookup_people st.lk (parse_names row.presenters)).2 }
            st.sessions,
          current_session := st.current_session,
          lk := (smart_lookup_people st.lk (parse_names row.presenters)).1 } := by
      unfold sessStep
      have hcond : (row.type = .str ("paper".toList) &&
          pyTruthyOptStr st.current_session) = true := by
        simp [ht, hcur, pyTruthyOptStr, hsid]
      cases hc : row.sessionNo with
      | str s =>
        rw [hc] at hh
        simp only [isHeaderCell] at hh
        simp only [hh, Bool.false_eq_true, if_false, sessStep.sessPaperStep]
        rw [if_pos hcond, hcur]
        simp [hcur]
      | blank =>
        simp only [sessStep.sessPaperStep]
        rw [if_pos hcond, hcur]
        simp [hcur]
      | num n =>
        simp only [sessStep.sessPaperStep]
        rw [if_pos hcond, hcur]
        simp [hcur]
    rw [hstep]
    exact ⟨hcur, lookupKey_appendPaper_self _ hl⟩

def sessW6 : Session :=
  { type := "panel".toList, title := "T".toList, description := [],
    presenters := [], papers := [] }

def stW6 : SessState :=
  { sessions := [("1".toList, sessW6)],
    current_session := some ("1".toList), lk := ⟨[], []⟩ }

/-- Claim C6, witness: the paper-append rule applied to a concrete paper
row while session 1 is current. -/
theorem C6_session_grouping_witness :
    (sessStep [] stW6 (papRow6 ("X".toList))).current_session = some ("1".toList) ∧
    lookupKey ("1".toList) (sessStep [] stW6 (papRow6 ("X".toList))).sessions =
      some { sessW6 with
             papers := sessW6.papers ++
               [{ title := clean_text (papRow6 ("X".toList)).title,
                  abstract := clean_text (papRow6 ("X".toList)).abstract,
                  authors := (smart_lookup_people stW6.lk
                    (parse_names (papRow6 ("X".toList)).presenters)).2 }] } :=
  C6_session_grouping.2.2.2.1 [] stW6 (papRow6 ("X".toList)) ("1".toList) sessW6
    (by decide) (by decide) (by decide) (by decide) (by decide)

/-! ## The unguarded int() on film rows (claim C2) -/

def docC2 : Doc :=
  { conference := [], venues := [], events := [], sessions := [],
    panel_descriptions := [] }

def sheetsC2 : Sheets :=
  { participants := [], sessions := [], events := [],
    screenings :=
      [{ slot := .str ("Mon - 0900 - Cinema".toList), film_title := .str [],
         year := .str [], duration := .str [], creatives := .str [] },
       { slot := .blank, film_title := .str ("Film X".toList),
         year := .str ("TBA".toList), duration := .num 90, creatives := .str [] }] }

/-- Claim C2 is contradicted by the code: a film row whose Year cell holds
the non-blank, non-numeric text TBA makes the reconciliation run raise — a
ValueError escapes from `int(row.get('Year', 0))` — so the run aborts
without writing output or surfacing the warning report, instead of
collecting the finding and completing. -/
theorem C2_crash_on_film_year :
    is_blank (.str ("TBA".toList)) = false ∧
    importRun docC2 sheetsC2 = .error () :=
  ⟨rfl, rfl⟩

/-! ## Default fields of reconstructed events (claim C10) -/

/-- The cross-referencing of a rebuilt event against the original document:
first original event with the same (time, venue, day). -/
def origMatch (orig_events : List Event) (e : Event) : Option Event :=
  orig_events.find? (fun o => o.time = e.time && o.venue = e.venue && o.day = e.day)

/-- The field facts claim C10 states for every emitted event. -/
def C10prop (orig_events : List Event) (e : Event) : Prop :=
  e.headshot_url = none ∧ e.logo_url = none ∧
  e.session_num = (origMatch orig_events e).bind Event.session_num ∧
  e.affiliation = (origMatch orig_events e).bind Event.affiliation

theorem buildEvent_fields {orig : List Event} {lk : LookupState} {row : EventRow}
    {lk1 : LookupState} {e : Event} (h : buildEvent orig lk row = (lk1, some e)) :
    C10prop orig e ∧ e.films = none := by
  simp only [buildEvent] at h
  split at h
  · simp at h
  · simp only [Prod.mk.injEq, Option.some_inj] at h
    obtain ⟨hlk, he⟩ := h
    subst he
    unfold C10prop origMatch
    cases hm : orig.find? (fun o =>
        o.time = format_time_value row.time && o.venue = clean_text row.venue &&
        o.day = clean_text row.day) <;> simp [hm]

theorem processEvents_fields {orig : List Event} : ∀ (rows : List EventRow)
    (lk : LookupState) (e : Event), e ∈ (processEvents lk orig rows).2 →
    C10prop orig e ∧ e.films = none := by
  intro rows
  induction rows with
  | nil => intro lk e h; simp [processEvents] at h
  | cons row rest ih =>
    intro lk e h
    simp only [processEvents] at h
    rcases hb : (buildEvent orig lk row).2 with _ | e0
    · rw [hb] at h
      exact ih (buildEvent orig lk row).1 e h
    · rw [hb] at h
      rcases List.mem_cons.mp h with he | he
      · subst he
        have hbe : buildEvent orig lk row = ((buildEvent orig lk row).1, some e) := by
          rw [← hb]
        exact buildEvent_fields hbe
      · exact ih (buildEvent orig lk row).1 e he

theorem attachFilms_fields (sf : List (Str × List Film)) (e : Event) :
    (attachFilms sf e).headshot_url = e.headshot_url ∧
    (attachFilms sf e).logo_url = e.logo_url ∧
    (attachFilms sf e).session_num = e.session_num ∧
    (attachFilms sf e).affiliation = e.affiliation ∧
    (attachFilms sf e).day = e.day ∧
    (attachFilms sf e).time = e.time ∧
    (attachFilms sf e).venue = e.venue := by
  unfold attachFilms
  by_cases ht : e.type = "screening".toList
  · rw [if_pos ht]
    refine ⟨?_, ?_, ?_, ?_, ?_, ?_, ?_⟩ <;> (dsimp only; split <;> rfl)
  · rw [if_neg ht]
    exact ⟨rfl, rfl, rfl, rfl, rfl, rfl, rfl⟩

/-- Claim C10: every event in the reconciler's output has null headshot_url
and logo_url regardless of the original document, and carries the
session_num (and, in the same case, the affiliation) of the first original
event sharing its (day, time, venue), null when there is no such original
event or it supplies none. -/
theorem C10_event_defaults :
    ∀ (original : Doc) (sh : Sheets) (r : ImportResult),
      importRun original sh = .ok r →
      ∀ e ∈ r.doc.events, C10prop original.events e := by
  intro original sh r hrun e he
  unfold importRun at hrun
  dsimp only at hrun
  split at hrun
  · exact absurd hrun (by simp)
  · rename_i scr hscr
    simp only [Except.ok.injEq] at hrun
    subst hrun
    simp only [List.mem_map] at he
    obtain ⟨e0, he0, hatt⟩ := he
    have hmem : e0 ∈ (processEvents
        (processSessions ⟨(buildLookup sh.participants).1, []⟩
          original.panel_descriptions sh.sessions).lk
        original.events sh.events).2 := by
      have hf := filterEvents_eq
        (processSessions ⟨(buildLookup sh.participants).1, []⟩
          original.panel_descriptions sh.sessions).sessions
        (processEvents
          (processSessions ⟨(buildLookup sh.participants).1, []⟩
            original.panel_descriptions sh.sessions).lk
          original.events sh.events).2
      rw [hf] at he0
      exact List.mem_filter.mp he0 |>.1
    have hfields := (processEvents_fields sh.events _ e0 hmem).1
    obtain ⟨hh, hl, hs, ha⟩ := hfields
    obtain ⟨ph, pl, ps, pa, pd, pt, pv⟩ := attachFilms_fields scr.screening_films e0
    subst hatt
    have hom : origMatch original.events (attachFilms scr.screening_films e0) =
        origMatch original.events e0 := by
      unfold origMatch
      rw [pd, pt, pv]
    exact ⟨ph.trans hh, pl.trans hl, by rw [ps, hs, hom], by rw [pa, ha, hom]⟩

def origEvC10 : Event :=
  { day := "Mon".toList, time := "0900".toList, venue := "H".toList,
    content := "X".toList, type := "talk".toList, session_num := some ("1".toList),
    affiliation := some ("Aff".toList), presenters := none, abstract := none,
    films := none, headshot_url := some ("h".toList), logo_url := some ("l".toList) }

def docC10 : Doc :=
  { conference := [], venues := [], events := [origEvC10],
    sessions := [], panel_descriptions := [] }

def sheetsC10 : Sheets :=
  { participants := [],
    sessions := [{ sessionNo := .str ("SESSION 1".toList), type := .str ("panel".toList),
                   title := .str ("T".toList), description := .str ("D".toList),
                   presenters := .blank, abstract := .blank }],
    events := [{ day := .str ("Mon".toList), time := .str ("0900".toList),
                 venue := .str ("H".toList), type := .str ("talk".toList),
                 content := .str ("X".toList), presenters := .blank,
                 abstract := .blank }],
    screenings := [] }

def sessC10 : Session :=
  { type := "panel".toList, title := "T".toList, description := "D".toList,
    presenters := [], papers := [] }

def evC10out : Event :=
  { day := "Mon".toList, time := "0900".toList, venue := "H".toList,
    content := "X".toList, type := "talk".toList, session_num := some ("1".toList),
    affiliation := some ("Aff".toList), presenters := none, abstract := none,
    films := none, headshot_url := none, logo_url := none }

def docC10out : Doc :=
  { conference := [], venues := [], events := [evC10out],
    sessions := [("1".toList, sessC10)],
    panel_descriptions := [("1".toList, "D".toList)] }

def resC10 : ImportResult :=
  { doc := docC10out, warnings := [], final := ⟨[], []⟩ }

/-- Claim C10, witness: a concrete run whose single Events row matches an
original event supplying a session_num and an affiliation; the rebuilt
event carries them while its headshot_url and logo_url are nulled. -/
theorem C10_event_defaults_witness : C10prop docC10.events evC10out :=
  C10_event_defaults docC10 sheetsC10 resC10 rfl evC10out (by decide)

/-! ## Registry as single source of truth (claim C9) -/

/-- Every participant reference embedded in a document (session presenters,
paper authors, event presenters, film creatives). -/
def allEventRefs (e : Event) : List Ref :=
  e.presenters.getD [] ++ ((e.films.getD []).map Film.creatives).flatten

def allSessionRefs (l : List (Str × Session)) : List Ref :=
  (l.map (fun p => sessionRefs p.2)).flatten

def allDocRefs (d : Doc) : List Ref :=
  allSessionRefs d.sessions ++ (d.events.map allEventRefs).flatten

theorem smartLookupOne_reg_cases (st : LookupState) (tok : Str) :
    (smartLookupOne st tok).1.reg = st.reg ∨
    ∃ k w, lookupKey k st.reg = none ∧
      (smartLookupOne st tok).1.reg = setKey k w st.reg := by
  unfold smartLookupOne
  dsimp only
  split
  · left; rfl
  · split
    · left; rfl
    · split
      · left; rfl
      · rename_i hnone
        split
        · right; exact ⟨_, _, hnone, rfl⟩
        · right; exact ⟨_, _, hnone, rfl⟩

theorem lookup_mono_smartLookupOne {st : LookupState} (tok : Str) {n : Str}
    {v : Option Cell} (h : lookupKey n st.reg = some v) :
    lookupKey n (smartLookupOne st tok).1.reg = some v := by
  rcases smartLookupOne_reg_cases st tok with heq | ⟨k, w, hk, heq⟩
  · rw [heq]; exact h
  · have hne : n ≠ k := by
      intro hnk
      subst hnk
      rw [h] at hk
      cases hk
    rw [heq, lookupKey_setKey_ne hne]
    exact h

theorem smartLookupOne_emit {st st1 : LookupState} {tok : Str} {r : Ref}
    (h : smartLookupOne st tok = (st1, some r)) :
    lookupKey r.name st1.reg = some r.institution := by
  unfold smartLookupOne at h
  dsimp only at h
  split at h
  · simp at h
  · split at h
    · simp at h
    · split at h
      · rename_i v hv
        simp only [Prod.mk.injEq, Option.some_inj] at h
        obtain ⟨h1, h2⟩ := h
        subst h1
        subst h2
        exact hv
      · split at h
        · simp only [Prod.mk.injEq, Option.some_inj] at h
          obtain ⟨h1, h2⟩ := h
          subst h1
          subst h2
          exact lookupKey_setKey_self _ _ _
        · simp only [Prod.mk.injEq, Option.some_inj] at h
          obtain ⟨h1, h2⟩ := h
          subst h1
          subst h2
          exact lookupKey_setKey_self _ _ _

theorem smart_lookup_people_spec : ∀ (toks : List Str) (st : LookupState),
    (∀ (n : Str) (v : Option Cell), lookupKey n st.reg = some v →
      lookupKey n (smart_lookup_people st toks).1.reg = some v) ∧
    (∀ r ∈ (smart_lookup_people st toks).2,
      lookupKey r.name (smart_lookup_people st toks).1.reg = some r.institution) := by
  intro toks
  induction toks with
  | nil =>
    intro st
    exact ⟨fun n v h => h, by simp [smart_lookup_people]⟩
  | cons t ts ih =>
    intro st
    constructor
    · intro n v h
      simp only [smart_lookup_people]
      exact (ih (smartLookupOne st t).1).1 n v (lookup_mono_smartLookupOne t h)
    · intro r hr
      simp only [smart_lookup_people] at hr ⊢
      rcases ho : (smartLookupOne st t).2 with _ | x
      · rw [ho] at hr
        exact (ih (smartLookupOne st t).1).2 r hr
      · rw [ho] at hr
        rcases List.mem_cons.mp hr with he | he
        · subst he
          have hpair : smartLookupOne st t = ((smartLookupOne st t).1, some r) := by
            rw [← ho]
          have hemit := smartLookupOne_emit hpair
          exact (ih (smartLookupOne st t).1).1 r.name r.institution hemit
        · exact (ih (smartLookupOne st t).1).2 r he

theorem mem_allSessionRefs {r : Ref} {l : List (Str × Session)} :
    r ∈ allSessionRefs l ↔ ∃ p ∈ l, r ∈ sessionRefs p.2 := by
  unfold allSessionRefs
  rw [List.mem_flatten]
  constructor
  · rintro ⟨s, hs, hr⟩
    obtain ⟨p, hp, rfl⟩ := List.mem_map.mp hs
    exact ⟨p, hp, hr⟩
  · rintro ⟨p, hp, hr⟩
    exact ⟨sessionRefs p.2, List.mem_map_of_mem _ hp, hr⟩

theorem mem_setKey {α : Type} {q : Str × α} {k : Str} {v : α} :
    ∀ {l : List (Str × α)}, q ∈ setKey k v l → q = (k, v) ∨ q ∈ l := by
  intro l
  induction l with
  | nil => intro h; simpa [setKey] using h
  | cons hd t ih =>
    intro h
    obtain ⟨k1, v1⟩ := hd
    by_cases hk : k1 = k
    · subst hk
      simp only [setKey, if_pos rfl] at h
      rcases List.mem_cons.mp h with h | h
      · exact Or.inl h
      · exact Or.inr (List.mem_cons_of_mem _ h)
    · simp only [setKey, if_neg hk] at h
      rcases List.mem_cons.mp h with h | h
      · exact Or.inr (by simp [h])
      · rcases ih h with h2 | h2
        · exact Or.inl h2
        · exact Or.inr (List.mem_cons_of_mem _ h2)

theorem mem_appendPaper {k : Str} {pa : Paper} :
    ∀ {l : List (Str × Session)} {q : Str × Session}, q ∈ appendPaper k pa l →
      q ∈ l ∨ ∃ s : Session, (q.1, s) ∈ l ∧
        q.2 = { s with papers := s.papers ++ [pa] } := by
  intro l
  induction l with
  | nil => intro q h; simp [appendPaper] at h
  | cons hd t ih =>
    intro q h
    obtain ⟨k1, s1⟩ := hd
    by_cases hk : k1 = k
    · subst hk
      simp only [appendPaper, if_pos rfl] at h
      rcases List.mem_cons.mp h with h | h
      · right
        exact ⟨s1, by simp [h], by simp [h]⟩
      · exact Or.inl (List.mem_cons_of_mem _ h)
    · simp only [appendPaper, if_neg hk] at h
      rcases List.mem_cons.mp h with h | h
      · exact Or.inl (by simp [h])
      · rcases ih h with h2 | h2
        · exact Or.inl (List.mem_cons_of_mem _ h2)
        · obtain ⟨s, hs, hq⟩ := h2
          exact Or.inr ⟨s, List.mem_cons_of_mem _ hs, hq⟩

theorem mem_sessionRefs_addPaper {r : Ref} {s : Session} {pa : Paper}
    (h : r ∈ sessionRefs { s with papers := s.papers ++ [pa] }) :
    r ∈ sessionRefs s ∨ r ∈ pa.authors := by
  simp only [sessionRefs, List.mem_append, List.map_append, List.flatten_append] at h
  rcases h with h | h | h
  · exact Or.inl (by simp only [sessionRefs, List.mem_append]; exact Or.inl h)
  · exact Or.inl (by simp only [sessionRefs, List.mem_append]; exact Or.inr h)
  · right
    simpa using h

theorem mem_allSessionRefs_setKey {r : Ref} {k : Str} {s : Session}
    {l : List (Str × Session)} (h : r ∈ allSessionRefs (setKey k s l)) :
    r ∈ sessionRefs s ∨ r ∈ allSessionRefs l := by
  rw [mem_allSessionRefs] at h
  obtain ⟨p, hp, hr⟩ := h
  rcases mem_setKey hp with h2 | h2
  · subst h2
    exact Or.inl hr
  · right
    rw [mem_allSessionRefs]
    exact ⟨p, h2, hr⟩

theorem mem_allSessionRefs_appendPaper {r : Ref} {k : Str} {p : Paper}
    {l : List (Str × Session)} (h : r ∈ allSessionRefs (appendPaper k p l)) :
    r ∈ p.authors ∨ r ∈ allSessionRefs l := by
  rw [mem_allSessionRefs] at h
  obtain ⟨q, hq, hr⟩ := h
  rcases mem_appendPaper hq with h2 | h2
  · right
    rw [mem_allSessionRefs]
    exact ⟨q, h2, hr⟩
  · obtain ⟨s, hs, hq2⟩ := h2
    rw [hq2] at hr
    rcases mem_sessionRefs_addPaper hr with h3 | h3
    · right
      rw [mem_allSessionRefs]
      exact ⟨(q.1, s), hs, h3⟩
    · exact Or.inl h3

theorem sessStep_spec (pd : List (Str × Str)) (st : SessState) (row : SessRow) :
    (∀ (n : Str) (v : Option Cell), lookupKey n st.lk.reg = some v →
      lookupKey n (sessStep pd st row).lk.reg = some v) ∧
    ((∀ r ∈ allSessionRefs st.sessions,
        lookupKey r.name st.lk.reg = some r.institution) →
      ∀ r ∈ allSessionRefs (sessStep pd st row).sessions,
        lookupKey r.name (sessStep pd st row).lk.reg = some r.institution) := by
  unfold sessStep
  split
  · rename_i s
    split
    · -- header branch
      constructor
      · intro n v h
        exact (smart_lookup_people_spec _ st.lk).1 n v h
      · intro hall r hr
        rcases mem_allSessionRefs_setKey hr with h | h
        · simp only [sessionRefs, List.mem_append] at h
          rcases h with h | h
          · exact (smart_lookup_people_spec _ st.lk).2 r h
          · simp at h
        · exact (smart_lookup_people_spec _ st.lk).1 r.name r.institution (hall r h)
    · -- paper-or-skip branch on a string cell
      unfold sessStep.sessPaperStep
      split
      · constructor
        · intro n v h
          exact (smart_lookup_people_spec _ st.lk).1 n v h
        · intro hall r hr
          rcases mem_allSessionRefs_appendPaper hr with h | h
          · exact (smart_lookup_people_spec _ st.lk).2 r h
          · exact (smart_lookup_people_spec _ st.lk).1 r.name r.institution (hall r h)
      · exact ⟨fun n v h => h, fun hall r hr => hall r hr⟩
  · -- non-string grouping cell
    unfold sessStep.sessPaperStep
    split
    · constructor
      · intro n v h
        exact (smart_lookup_people_spec _ st.lk).1 n v h
      · intro hall r hr
        rcases mem_allSessionRefs_appendPaper hr with h | h
        · exact (smart_lookup_people_spec _ st.lk).2 r h
        · exact (smart_lookup_people_spec _ st.lk).1 r.name r.institution (hall r h)
    · exact ⟨fun n v h => h, fun hall r hr => hall r hr⟩

theorem foldl_sessStep_spec (pd : List (Str × Str)) : ∀ (rows : List SessRow)
    (st : SessState),
    (∀ (n : Str) (v : Option Cell), lookupKey n st.lk.reg = some v →
      lookupKey n (rows.foldl (sessStep pd) st).lk.reg = some v) ∧
    ((∀ r ∈ allSessionRefs st.sessions,
        lookupKey r.name st.lk.reg = some r.institution) →
      ∀ r ∈ allSessionRefs (rows.foldl (sessStep pd) st).sessions,
        lookupKey r.name (rows.foldl (sessStep pd) st).lk.reg = some r.institution) := by
  intro rows
  induction rows with
  | nil => intro st; exact ⟨fun n v h => h, fun hall r hr => hall r hr⟩
  | cons row rest ih =>
    intro st
    simp only [List.foldl_cons]
    constructor
    · intro n v h
      exact (ih (sessStep pd st row)).1 n v ((sessStep_spec pd st row).1 n v h)
    · intro hall
      exact (ih (sessStep pd st row)).2 ((sessStep_spec pd st row).2 hall)

theorem buildEvent_cases (orig : List Event) (lk : LookupState) (row : EventRow) :
    ((buildEvent orig lk row).1 = lk ∧ ((buildEvent orig lk row).2 = none ∨
        ∃ e, (buildEvent orig lk row).2 = some e ∧ e.presenters = none)) ∨
    ((buildEvent orig lk row).1 =
        (smart_lookup_people lk (parse_names row.presenters)).1 ∧
      ∃ e, (buildEvent orig lk row).2 = some e ∧
        e.presenters = some (smart_lookup_people lk (parse_names row.presenters)).2) := by
  unfold buildEvent
  dsimp only
  split
  · left
    exact ⟨rfl, Or.inl rfl⟩
  · by_cases hpn : parse_names row.presenters ≠ []
    · right
      refine ⟨by simp [hpn], ⟨_, rfl, by simp [hpn]⟩⟩
    · left
      refine ⟨by simp [hpn], Or.inr ⟨_, rfl, by simp [hpn]⟩⟩

theorem buildEvent_spec (orig : List Event) (lk : LookupState) (row : EventRow) :
    (∀ (n : Str) (v : Option Cell), lookupKey n lk.reg = some v →
      lookupKey n (buildEvent orig lk row).1.reg = some v) ∧
    (∀ e, (buildEvent orig lk row).2 = some e →
      ∀ r ∈ e.presenters.getD [],
        lookupKey r.name (buildEvent orig lk row).1.reg = some r.institution) := by
  rcases buildEvent_cases orig lk row with ⟨h1, h2⟩ | ⟨h1, e0, h2, h3⟩
  · constructor
    · intro n v h
      rw [h1]
      exact h
    · intro e he
      rcases h2 with h2 | ⟨e1, h21, h22⟩
      · rw [he] at h2
        cases h2
      · rw [he] at h21
        rw [Option.some_inj] at h21
        subst h21
        intro r hr
        rw [h22] at hr
        simp at hr
  · constructor
    · intro n v h
      rw [h1]
      exact (smart_lookup_people_spec _ lk).1 n v h
    · intro e he
      rw [he] at h2
      rw [Option.some_inj] at h2
      subst h2
      intro r hr
      rw [h3] at hr
      simp only [Option.getD_some] at hr
      rw [h1]
      exact (smart_lookup_people_spec _ lk).2 r hr

theorem processEvents_spec (orig : List Event) : ∀ (rows : List EventRow)
    (lk : LookupState),
    (∀ (n : Str) (v : Option Cell), lookupKey n lk.reg = some v →
      lookupKey n (processEvents lk orig rows).1.reg = some v) ∧
    (∀ e ∈ (processEvents lk orig rows).2, ∀ r ∈ e.presenters.getD [],
      lookupKey r.name (processEvents lk orig rows).1.reg = some r.institution) := by
  intro rows
  induction rows with
  | nil =>
    intro lk
    exact ⟨fun n v h => h, by simp [processEvents]⟩
  | cons row rest ih =>
    intro lk
    constructor
    · intro n v h
      simp only [processEvents]
      exact (ih (buildEvent orig lk row).1).1 n v ((buildEvent_spec orig lk row).1 n v h)
    · intro e he
      simp only [processEvents] at he ⊢
      rcases hb : (buildEvent orig lk row).2 with _ | e0
      · rw [hb] at he
        exact (ih (buildEvent orig lk row).1).2 e he
      · rw [hb] at he
        rcases List.mem_cons.mp he with h | h
        · subst h
          intro r hr
          have hvalid := (buildEvent_spec orig lk row).2 e hb r hr
          exact (ih (buildEvent orig lk row).1).1 r.name r.institution hvalid
        · exact (ih (buildEvent orig lk row).1).2 e h

/-- All film creatives recorded in the screening state resolve in its
registry. -/
def filmsOK (st : ScrState) : Prop :=
  ∀ p ∈ st.screening_films, ∀ f ∈ p.2, ∀ r ∈ f.creatives,
    lookupKey r.name st.lk.reg = some r.institution

theorem mem_appendFilm {slot : Str} {film : Film} :
    ∀ {l : List (Str × List Film)} {p : Str × List Film} {f : Film},
      p ∈ appendFilm slot film l → f ∈ p.2 →
      f = film ∨ ∃ q ∈ l, f ∈ q.2 := by
  intro l
  induction l with
  | nil =>
    intro p f hp hf
    simp [appendFilm] at hp
  | cons hd t ih =>
    intro p f hp hf
    obtain ⟨k1, fs1⟩ := hd
    by_cases hk : k1 = slot
    · subst hk
      simp only [appendFilm, if_pos rfl] at hp
      rcases List.mem_cons.mp hp with h | h
      · rw [h] at hf
        dsimp at hf
        rcases List.mem_append.mp hf with h2 | h2
        · exact Or.inr ⟨(k1, fs1), by simp, h2⟩
        · left
          simpa using h2
      · exact Or.inr ⟨p, List.mem_cons_of_mem _ h, hf⟩
    · simp only [appendFilm, if_neg hk] at hp
      rcases List.mem_cons.mp hp with h | h
      · exact Or.inr ⟨p, by simp [h], hf⟩
      · rcases ih h hf with h2 | ⟨q, hq, h2⟩
        · exact Or.inl h2
        · exact Or.inr ⟨q, List.mem_cons_of_mem _ hq, h2⟩

theorem scrStep_cases {st : ScrState} {row : ScrRow} {st1 : ScrState}
    (h : scrStep st row = .ok st1) :
    (st1.lk = st.lk ∧ (st1.screening_films = st.screening_films ∨
        ∃ cs, st1.screening_films = st.screening_films ++ [(cs, [])])) ∨
    (∃ film : Film,
      st1.lk = (smart_lookup_people st.lk (parse_names row.creatives)).1 ∧
      film.creatives = (smart_lookup_people st.lk (parse_names row.creatives)).2 ∧
      st1.screening_films =
        appendFilm (st.current_slot.getD []) film st.screening_films) := by
  unfold scrStep at h
  split at h
  · rw [Except.ok.injEq] at h
    subst h
    left
    dsimp only
    constructor
    · rfl
    · split
      · exact Or.inl rfl
      · exact Or.inr ⟨_, rfl⟩
  · split at h
    · split at h
      · cases h
      · split at h
        · cases h
        · rw [Except.ok.injEq] at h
          subst h
          right
          exact ⟨_, rfl, rfl, rfl⟩
    · rw [Except.ok.injEq] at h
      subst h
      left
      exact ⟨rfl, Or.inl rfl⟩

theorem scrStep_spec {st : ScrState} {row : ScrRow} {st1 : ScrState}
    (h : scrStep st row = .ok st1) :
    (∀ (n : Str) (v : Option Cell), lookupKey n st.lk.reg = some v →
      lookupKey n st1.lk.reg = some v) ∧
    (filmsOK st → filmsOK st1) := by
  rcases scrStep_cases h with ⟨hlk, hsf⟩ | ⟨film, hlk, hcr, hsf⟩
  · constructor
    · intro n v hv
      rw [hlk]
      exact hv
    · intro hall p hp f hf r hr
      rw [hlk]
      rcases hsf with hsf | ⟨cs, hsf⟩
      · rw [hsf] at hp
        exact hall p hp f hf r hr
      · rw [hsf] at hp
        rcases List.mem_append.mp hp with h2 | h2
        · exact hall p h2 f hf r hr
        · simp only [List.mem_singleton] at h2
          rw [h2] at hf
          simp at hf
  · constructor
    · intro n v hv
      rw [hlk]
      exact (smart_lookup_people_spec _ st.lk).1 n v hv
    · intro hall p hp f hf r hr
      rw [hlk]
      rw [hsf] at hp
      rcases mem_appendFilm hp hf with h2 | ⟨q, hq, h2⟩
      · subst h2
        rw [hcr] at hr
        exact (smart_lookup_people_spec _ st.lk).2 r hr
      · exact (smart_lookup_people_spec _ st.lk).1 r.name r.institution
          (hall q hq f h2 r hr)

theorem processScreeningsAux_spec : ∀ (rows : List ScrRow) (st st1 : ScrState),
    processScreeningsAux st rows = .ok st1 →
    (∀ (n : Str) (v : Option Cell), lookupKey n st.lk.reg = some v →
      lookupKey n st1.lk.reg = some v) ∧
    (filmsOK st → filmsOK st1) := by
  intro rows
  induction rows with
  | nil =>
    intro st st1 h
    simp only [processScreeningsAux, Except.ok.injEq] at h
    subst h
    exact ⟨fun n v hv => hv, fun hall => hall⟩
  | cons row rest ih =>
    intro st st1 h
    simp only [processScreeningsAux] at h
    rcases hs : scrStep st row with _ | stm
    · rw [hs] at h
      cases h
    · rw [hs] at h
      obtain ⟨hm, ho⟩ := ih stm st1 h
      obtain ⟨hm0, ho0⟩ := scrStep_spec hs
      exact ⟨fun n v hv => hm n v (hm0 n v hv), fun hall => ho (ho0 hall)⟩

theorem lookupKey_some_mem {α : Type} {k : Str} {v : α} :
    ∀ {l : List (Str × α)}, lookupKey k l = some v → (k, v) ∈ l := by
  intro l
  induction l with
  | nil => intro h; cases h
  | cons hd t ih =>
    intro h
    obtain ⟨k1, v1⟩ := hd
    by_cases hk : k1 = k
    · subst hk
      have h2 : v1 = v := by
        simpa [lookupKey] using h
      subst h2
      exact List.mem_cons_self _ _
    · simp only [lookupKey, if_neg hk] at h
      exact List.mem_cons_of_mem _ (ih h)

theorem attachFilms_presenters (sf : List (Str × List Film)) (e : Event) :
    (attachFilms sf e).presenters = e.presenters := by
  unfold attachFilms
  split
  · dsimp only
    split <;> rfl
  · rfl

theorem attachFilms_films_cases (sf : List (Str × List Film)) (e : Event) :
    (attachFilms sf e).films = e.films ∨
    ∃ sl fs, lookupKey sl sf = some fs ∧ (attachFilms sf e).films = some fs := by
  unfold attachFilms
  split
  · dsimp only
    split
    · rename_i fs hfs
      right
      exact ⟨_, fs, hfs, rfl⟩
    · left
      rfl
  · left
    rfl

/-- The session-phase state of a reconciliation run. -/
def importS3 (original : Doc) (sh : Sheets) : SessState :=
  processSessions ⟨(buildLookup sh.participants).1, []⟩ original.panel_descriptions
    sh.sessions

/-- The event-phase result of a reconciliation run. -/
def importPE (original : Doc) (sh : Sheets) : LookupState × List Event :=
  processEvents (importS3 original sh).lk original.events sh.events

theorem importRun_ok_decomp {original : Doc} {sh : Sheets} {r : ImportResult}
    (h : importRun original sh = .ok r) :
    ∃ scr : ScrState,
      processScreenings (importPE original sh).1 sh.screenings = .ok scr ∧
      r.doc.sessions = (importS3 original sh).sessions ∧
      r.doc.events = (filterEvents (importS3 original sh).sessions
          (importPE original sh).2).1.map (attachFilms scr.screening_films) ∧
      r.final = scr.lk := by
  unfold importRun at h
  dsimp only at h
  split at h
  · cases h
  · rename_i scr hscr
    rw [Except.ok.injEq] at h
    subst h
    exact ⟨scr, hscr, rfl, rfl, rfl⟩

/-- Claim C9: after a reconciliation run completes, every ParticipantRef
embedded in the output document — session presenters, paper authors, event
presenters and film creatives — carries an institution equal to the final
registry value for its name: the registry is the single source of truth. -/
theorem C9_registry_truth :
    ∀ (original : Doc) (sh : Sheets) (res : ImportResult),
      importRun original sh = .ok res →
      ∀ ref ∈ allDocRefs res.doc,
        lookupKey ref.name res.final.reg = some ref.institution := by
  intro original sh res hrun ref href
  obtain ⟨scr, hscr, hsess, hevs, hfin⟩ := importRun_ok_decomp hrun
  rw [hfin]
  have hS := foldl_sessStep_spec original.panel_descriptions sh.sessions
    ⟨[], none, ⟨(buildLookup sh.participants).1, []⟩⟩
  have hE := processEvents_spec original.events sh.events (importS3 original sh).lk
  have hScr := processScreeningsAux_spec sh.screenings
    ⟨none, [], (importPE original sh).1⟩ scr hscr
  have hSessValid : ∀ r2 ∈ allSessionRefs (importS3 original sh).sessions,
      lookupKey r2.name (importS3 original sh).lk.reg = some r2.institution := by
    have hinit : ∀ r2 ∈ allSessionRefs
        (⟨[], none, ⟨(buildLookup sh.participants).1, []⟩⟩ : SessState).sessions,
        lookupKey r2.name
          (⟨[], none, ⟨(buildLookup sh.participants).1, []⟩⟩ : SessState).lk.reg =
          some r2.institution := by
      intro r2 hr2
      simp [allSessionRefs] at hr2
    exact hS.2 hinit
  unfold allDocRefs at href
  rcases List.mem_append.mp href with hs | he
  · rw [hsess] at hs
    have h1 := hSessValid ref hs
    have h2 := hE.1 ref.name ref.institution h1
    exact hScr.1 ref.name ref.institution h2
  · obtain ⟨el, hel, hrefel⟩ := List.mem_flatten.mp he
    obtain ⟨e, hein, rfl⟩ := List.mem_map.mp hel
    rw [hevs] at hein
    obtain ⟨e0, he0, rfl⟩ := List.mem_map.mp hein
    have he0pe : e0 ∈ (importPE original sh).2 := by
      rw [filterEvents_eq] at he0
      exact (List.mem_filter.mp he0).1
    unfold allEventRefs at hrefel
    rcases List.mem_append.mp hrefel with hp | hf
    · rw [attachFilms_presenters] at hp
      have h1 := hE.2 e0 he0pe ref hp
      exact hScr.1 ref.name ref.institution h1
    · rcases attachFilms_films_cases scr.screening_films e0 with hcase | ⟨sl, fs, hlku, hcase⟩
      · have hnone : e0.films = none := (processEvents_fields sh.events _ e0 he0pe).2
        rw [hcase, hnone] at hf
        simp at hf
      · rw [hcase] at hf
        simp only [Option.getD_some] at hf
        obtain ⟨cr, hcr, hrcr⟩ := List.mem_flatten.mp hf
        obtain ⟨f, hfmem, rfl⟩ := List.mem_map.mp hcr
        have hOK : filmsOK scr := by
          apply hScr.2
          intro p hp
          simp at hp
        exact hOK (sl, fs) (lookupKey_some_mem hlku) f hfmem ref hrcr

def origW9 : Doc :=
  { conference := [], venues := [], events := [], sessions := [],
    panel_descriptions := [] }

def shW9 : Sheets :=
  { participants := [{ name := .str ("Ann".toList), institution := .str ("MIT".toList) }],
    sessions := [{ sessionNo := .str ("SESSION 1".toList), type := .str ("panel".toList),
                   title := .str ("T".toList), description := .blank,
                   presenters := .str ("Ann".toList), abstract := .blank }],
    events := [], screenings := [] }

def sessW9 : Session :=
  { type := "panel".toList, title := "T".toList, description := [],
    presenters := [{ name := "Ann".toList, institution := some (.str ("MIT".toList)) }],
    papers := [] }

def resW9 : ImportResult :=
  { doc := { conference := [], venues := [], events := [],
             sessions := [("1".toList, sessW9)], panel_descriptions := [] },
    warnings := [],
    final := ⟨[("Ann".toList, some (.str ("MIT".toList)))], []⟩ }

/-- Claim C9, witness: in a concrete run, the presenter reference Ann
embedded in rebuilt session 1 carries exactly the final registry value
(MIT). -/
theorem C9_registry_truth_witness :
    lookupKey ("Ann".toList) resW9.final.reg =
      some (Ref.institution ⟨"Ann".toList, some (.str ("MIT".toList))⟩) :=
  C9_registry_truth origW9 shW9 resW9 rfl
    ⟨"Ann".toList, some (.str ("MIT".toList))⟩ (by decide)

/-! ## Round trip (claim C1): counterexample -/

def sessRT : Session :=
  { type := "panel".toList, title := "T".toList, description := [],
    presenters := [], papers := [] }

def docRT : Doc :=
  { conference := "c".toList, venues := "v".toList, events := [],
    sessions := [("1".toList, sessRT)],
    panel_descriptions := [("1".toList, "B".toList)] }

def resRT : ImportResult :=
  { doc := { conference := "c".toList, venues := "v".toList, events := [],
             sessions := [("1".toList, { sessRT with description := "B".toList })],
             panel_descriptions := [("1".toList, "B".toList)] },
    warnings := [], final := ⟨[], []⟩ }

/-- Claim C1, counterexample: extracting and reconciling back a conforming
document whose session 1 has an empty description while panel_descriptions
stores B for id 1 changes the value of a representable field — the session
description becomes B — so the result is not the original up to key
ordering and removal of unrepresentable fields. -/
theorem C1_counterexample :
    roundTrip docRT = .ok resRT ∧
    (lookupKey ("1".toList) resRT.doc.sessions).map Session.description =
      some ("B".toList) ∧
    (lookupKey ("1".toList) docRT.sessions).map Session.description = some [] ∧
    resRT.doc ≠ docRT :=
  ⟨rfl, rfl, rfl, by decide⟩

/-! ## Round trip: string lemmas -/

theorem length_lstrip_le (s : Str) : (lstrip s).length ≤ s.length :=
  (List.dropWhile_sublist isSpace).length_le

theorem length_rstrip_le (s : Str) : (rstrip s).length ≤ s.length := by
  unfold rstrip
  rw [List.length_reverse]
  have := (List.dropWhile_sublist (l := s.reverse) isSpace).length_le
  simpa using this

theorem dropWhile_eq_self_of_length {p : Char → Bool} :
    ∀ {s : Str}, (s.dropWhile p).length = s.length → s.dropWhile p = s := by
  intro s
  induction s with
  | nil => intro h; rfl
  | cons c t ih =>
    intro h
    by_cases hc : p c = true
    · exfalso
      rw [List.dropWhile_cons_of_pos hc] at h
      have := (List.dropWhile_sublist (l := t) p).length_le
      simp only [List.length_cons] at h
      omega
    · exact List.dropWhile_cons_of_neg (by simpa using hc)

theorem lstrip_of_strip_eq {s : Str} (h : strip s = s) : lstrip s = s := by
  have h1 : (strip s).length = s.length := by rw [h]
  have h2 : (strip s).length ≤ (lstrip s).length := by
    unfold strip
    exact length_rstrip_le (lstrip s)
  have h3 : (lstrip s).length ≤ s.length := length_lstrip_le s
  have h4 : (lstrip s).length = s.length := by omega
  exact dropWhile_eq_self_of_length h4

theorem rstrip_of_strip_eq {s : Str} (h : strip s = s) : rstrip s = s := by
  have h1 := lstrip_of_strip_eq h
  unfold strip at h
  rw [h1] at h
  exact h

theorem head_not_space {c : Char} {t : Str} (h : lstrip (c :: t) = c :: t) :
    isSpace c = false := by
  by_contra hc
  rw [Bool.not_eq_false] at hc
  rw [lstrip, List.dropWhile_cons_of_pos hc] at h
  have := (List.dropWhile_sublist (l := t) isSpace).length_le
  have h2 : (List.dropWhile isSpace t).length = (c :: t).length := by rw [h]
  simp only [List.length_cons] at h2
  omega

theorem lstrip_cons_of_not_space {c : Char} {t : Str} (h : isSpace c = false) :
    lstrip (c :: t) = c :: t :=
  List.dropWhile_cons_of_neg (by simp [h])

theorem clean_text_canonical {t : Str} (h : strip t = t) :
    clean_text (.str t) = t := by
  by_cases ht : t = []
  · subst ht
    rfl
  · have hb : is_blank (.str t) = false := by
      simp only [is_blank]
      rw [h]
      exact decide_eq_false ht
    unfold clean_text
    rw [hb]
    simp only [Bool.false_eq_true, if_false, cellToStr, h]

theorem clean_text_str_canonical {t : Str} (h : strip t = t) :
    clean_text_str t = t := by
  by_cases ht : t = []
  · subst ht
    rfl
  · unfold clean_text_str
    rw [h, if_neg ht]

theorem strip_cons_space (s : Str) : strip (' ' :: s) = strip s := by
  unfold strip lstrip
  rw [List.dropWhile_cons_of_pos]
  rfl

theorem not_space_of_digit {c : Char} (h : c.isDigit = true) : isSpace c = false := by
  by_contra hsp
  rw [Bool.not_eq_false] at hsp
  simp only [isSpace, Bool.or_eq_true, decide_eq_true_eq] at hsp
  rcases hsp with ((h1 | h1) | h1) | h1 <;> (subst h1; exact absurd h (by decide))

theorem lstrip_of_no_space {s : Str} (h : ∀ c ∈ s, isSpace c = false) :
    lstrip s = s := by
  cases s with
  | nil => rfl
  | cons c t => exact lstrip_cons_of_not_space (h c (by simp))

theorem strip_of_no_space {s : Str} (h : ∀ c ∈ s, isSpace c = false) :
    strip s = s := by
  unfold strip
  rw [lstrip_of_no_space h]
  unfold rstrip
  have h2 : List.dropWhile isSpace s.reverse = s.reverse :=
    lstrip_of_no_space (fun c hc => h c (List.mem_reverse.mp hc))
  rw [h2, List.reverse_reverse]

theorem strip_of_digits {s : Str} (h : s.all Char.isDigit = true) : strip s = s := by
  apply strip_of_no_space
  intro c hc
  exact not_space_of_digit (List.all_eq_true.mp h c hc)

theorem digit_ne_S {c : Char} (h : c.isDigit = true) : ¬ c = 'S' := by
  intro he
  subst he
  exact absurd h (by decide)

theorem replaceSESSION_cons_ne {c : Char} {rest : Str} (hc : ¬ c = 'S') :
    replaceSESSION (c :: rest) = c :: replaceSESSION rest := by
  rw [replaceSESSION.eq_def]
  split
  · rename_i heq
    injection heq with h1 h2
    exact absurd h1 hc
  · rename_i c2 rest2 heq
    injection heq with h1 h2
    subst h1
    subst h2
    rfl
  · rename_i heq
    cases heq

theorem replaceSESSION_of_no_S : ∀ {s : Str}, (∀ c ∈ s, ¬ c = 'S') →
    replaceSESSION s = s := by
  intro s
  induction s with
  | nil => intro; rfl
  | cons c t ih =>
    intro h
    rw [replaceSESSION_cons_ne (h c (by simp))]
    rw [ih (fun d hd => h d (by simp [hd]))]

theorem sid_roundtrip {sid : Str} (h : isDigitStr sid = true) :
    strip (replaceSESSION ("SESSION ".toList ++ sid)) = sid := by
  simp only [isDigitStr, Bool.and_eq_true, decide_eq_true_eq] at h
  have hdig := h.2
  have h1 : replaceSESSION ("SESSION ".toList ++ sid) = ' ' :: replaceSESSION sid := by
    rfl
  rw [h1]
  rw [replaceSESSION_of_no_S (fun c hc => digit_ne_S (List.all_eq_true.mp hdig c hc))]
  rw [strip_cons_space]
  exact strip_of_digits hdig

/-! ## Round trip: joining and re-splitting name lists -/

theorem splitSemiAux_no_semi : ∀ (x acc : Str), (∀ c ∈ x, ¬ c = ';') →
    splitSemiAux acc x = [acc.reverse ++ x] := by
  intro x
  induction x with
  | nil => intro acc h; simp [splitSemiAux]
  | cons c t ih =>
    intro acc h
    have hc : ¬ c = ';' := h c (by simp)
    simp only [splitSemiAux, if_neg hc]
    rw [ih (c :: acc) (fun d hd => h d (by simp [hd]))]
    simp

theorem splitSemiAux_semi : ∀ (x acc rest : Str), (∀ c ∈ x, ¬ c = ';') →
    splitSemiAux acc (x ++ ';' :: rest) = (acc.reverse ++ x) :: splitSemiAux [] rest := by
  intro x
  induction x with
  | nil =>
    intro acc rest h
    simp [splitSemiAux]
  | cons c t ih =>
    intro acc rest h
    have hc : ¬ c = ';' := h c (by simp)
    simp only [List.cons_append, splitSemiAux, if_neg hc, List.append_eq]
    rw [ih (c :: acc) rest (fun d hd => h d (by simp [hd]))]
    simp

theorem splitSemiAux_acc : ∀ (s acc : Str),
    splitSemiAux acc s =
      (acc.reverse ++ (splitSemiAux [] s).headI) :: (splitSemiAux [] s).tail := by
  intro s
  induction s with
  | nil => intro acc; simp [splitSemiAux]
  | cons c t ih =>
    intro acc
    by_cases hc : c = ';'
    · subst hc
      simp [splitSemiAux]
    · simp only [splitSemiAux, if_neg hc]
      rw [ih (c :: acc), ih [c]]
      simp

theorem joinSemi_ne_nil {x : Str} {xs : List Str} (hx : x ≠ []) :
    joinSemi (x :: xs) ≠ [] := by
  cases xs with
  | nil => simpa [joinSemi] using hx
  | cons y t =>
    simp only [joinSemi]
    intro hcon
    rcases List.append_eq_nil.mp hcon with ⟨h1, _⟩
    rcases List.append_eq_nil.mp h1 with ⟨h2, _⟩
    exact hx h2

theorem parse_names_joinSemi : ∀ (names : List Str),
    (∀ n ∈ names, n ≠ [] ∧ strip n = n ∧ ∀ c ∈ n, ¬ c = ';') →
    parse_names (.str (joinSemi names)) = names := by
  intro names
  induction names with
  | nil => intro h; rfl
  | cons x xs ih =>
    intro h
    obtain ⟨hx, hxs, hxsemi⟩ := h x (by simp)
    cases xs with
    | nil =>
      show parse_names (.str x) = [x]
      simp only [parse_names]
      rw [if_neg hx]
      unfold splitSemi
      rw [splitSemiAux_no_semi x [] hxsemi]
      simp only [List.reverse_nil, List.nil_append, List.filterMap_cons,
        List.filterMap_nil, hxs]
      rw [if_neg hx]
    | cons y t =>
      obtain ⟨hy, hys, hysemi⟩ := h y (by simp)
      have hjoin : joinSemi (x :: y :: t) = x ++ ';' :: ' ' :: joinSemi (y :: t) := by
        show (x ++ "; ".toList) ++ joinSemi (y :: t) = _
        rw [List.append_assoc]
        rfl
      have hjy : joinSemi (y :: t) ≠ [] := joinSemi_ne_nil hy
      have hih := ih (fun n hn => h n (by simp [hn]))
      simp only [parse_names] at hih ⊢
      rw [hjoin, if_neg (by
        intro hcon
        exact hx (List.append_eq_nil.mp hcon).1)]
      rw [if_neg hjy] at hih
      unfold splitSemi at hih ⊢
      rw [splitSemiAux_semi x [] _ hxsemi]
      simp only [List.reverse_nil, List.nil_append]
      have hsplit : splitSemiAux ([] : Str) (' ' :: joinSemi (y :: t)) =
          (' ' :: (splitSemiAux [] (joinSemi (y :: t))).headI) ::
            (splitSemiAux [] (joinSemi (y :: t))).tail := by
        have hspace : ¬ (' ' : Char) = ';' := by decide
        simp only [splitSemiAux, if_neg hspace]
        rw [splitSemiAux_acc]
        rfl
      rw [hsplit]
      rcases hsp : splitSemiAux ([] : Str) (joinSemi (y :: t)) with _ | ⟨p, ps⟩
      · exact absurd hsp (by
          rw [splitSemiAux_acc]
          simp)
      · rw [hsp] at hih
        simp only [hsp, List.headI, List.tail]
        rw [List.filterMap_cons, List.filterMap_cons]
        rw [hxs, if_neg hx]
        have hfeq : (if strip (' ' :: p) = ([] : Str) then (none : Option Str)
            else some (strip (' ' :: p))) =
            (if strip p = ([] : Str) then none else some (strip p)) := by
          rw [strip_cons_space]
        rw [hfeq]
        rw [List.filterMap_cons] at hih
        rw [hih]

/-! ## Round trip: the exported registry resolves every reference -/

theorem foldl_updInst_const {v : Option Cell} : ∀ {l : List (Option Cell)},
    (∀ i ∈ l, i = v) → l.foldl updInst v = v := by
  intro l
  induction l with
  | nil => intro; rfl
  | cons i t ih =>
    intro h
    have hi : i = v := h i (by simp)
    subst hi
    simp only [List.foldl_cons]
    have hupd : updInst i i = i := by
      unfold updInst
      split <;> rfl
    rw [hupd]
    exact ih (fun j hj => h j (by simp [hj]))

theorem mem_instObservations {r : Ref} {obs : List Ref} (h : r ∈ obs) :
    r.institution ∈ instObservations obs r.name := by
  unfold instObservations
  rw [List.mem_filterMap]
  exact ⟨r, h, by simp⟩

theorem exportRegistry_lookup {d : Doc} {ref : Ref}
    (hcons : ∀ r1 ∈ docRefs d, ∀ r2 ∈ docRefs d, r1.name = r2.name →
      r1.institution = r2.institution)
    (hmem : ref ∈ docRefs d) :
    lookupKey ref.name (exportRegistry d) = some ref.institution := by
  unfold exportRegistry
  rw [lookup_foldl_add_participant]
  have hobs : ref.institution ∈ instObservations (docRefs d) ref.name :=
    mem_instObservations hmem
  have hall : ∀ i ∈ instObservations (docRefs d) ref.name, i = ref.institution := by
    intro i hi
    unfold instObservations at hi
    rw [List.mem_filterMap] at hi
    obtain ⟨r2, hr2, hf⟩ := hi
    by_cases hname : r2.name = ref.name
    · rw [if_pos hname] at hf
      rw [Option.some_inj] at hf
      rw [← hf]
      exact hcons r2 hr2 ref hmem hname
    · rw [if_neg hname] at hf
      cases hf
  rcases hl : instObservations (docRefs d) ref.name with _ | ⟨i, is⟩
  · rw [hl] at hobs
    cases hobs
  · show some (List.foldl updInst i is) = some ref.institution
    have hi : i = ref.institution := hall i (by rw [hl]; simp)
    have hconst : is.foldl updInst i = i := by
      apply foldl_updInst_const
      intro j hj
      rw [hi]
      exact hall j (by rw [hl]; simp [hj])
    rw [hconst, hi]

/-! ## Round trip: no-duplicate keys, sorting, and the imported registry -/

def nodupKeys {α : Type} (l : List (Str × α)) : Prop :=
  (l.map Prod.fst).Nodup

theorem lookupKey_eq_none_iff {α : Type} {n : Str} : ∀ {l : List (Str × α)},
    lookupKey n l = none ↔ n ∉ l.map Prod.fst := by
  intro l
  induction l with
  | nil => simp [lookupKey]
  | cons hd t ih =>
    obtain ⟨k1, v1⟩ := hd
    by_cases hk : k1 = n
    · subst hk
      simp only [lookupKey, if_pos rfl, List.map_cons, List.mem_cons]
      constructor
      · intro h
        cases h
      · intro h
        exact absurd (Or.inl trivial) h
    · simp only [lookupKey, if_neg hk, List.map_cons, List.mem_cons]
      rw [ih]
      constructor
      · intro h hcon
        rcases hcon with hcon | hcon
        · exact hk hcon.symm
        · exact h hcon
      · intro h hcon
        exact h (Or.inr hcon)

theorem lookup_insertByName {x : Str × Option Cell} {n : Str} :
    ∀ {L : Registry}, x.1 ∉ L.map Prod.fst →
      lookupKey n (insertByName x L) = (if x.1 = n then some x.2 else lookupKey n L) := by
  obtain ⟨k, v⟩ := x
  intro L
  induction L with
  | nil =>
    intro h
    simp [insertByName, lookupKey]
  | cons y ys ih =>
    intro h
    obtain ⟨k1, v1⟩ := y
    simp only [List.map_cons, List.mem_cons] at h
    push_neg at h
    obtain ⟨hxy, hxys⟩ := h
    unfold insertByName
    by_cases hle : strLe k k1 = true
    · simp only [if_pos hle, lookupKey]
    · rw [if_neg hle]
      simp only [lookupKey]
      by_cases hyn : k1 = n
      · subst hyn
        rw [if_pos rfl, if_pos rfl, if_neg hxy]
      · rw [if_neg hyn, if_neg hyn]
        exact ih hxys

theorem keys_insertByName (x : Str × Option Cell) : ∀ (L : Registry) (m : Str),
    m ∈ (insertByName x L).map Prod.fst ↔ m = x.1 ∨ m ∈ L.map Prod.fst := by
  intro L
  induction L with
  | nil => intro m; simp [insertByName]
  | cons y ys ih =>
    intro m
    unfold insertByName
    by_cases hle : strLe x.1 y.1 = true
    · rw [if_pos hle]
      simp [List.mem_cons]
    · rw [if_neg hle]
      simp only [List.map_cons, List.mem_cons, ih]
      tauto

theorem lookup_sortByName : ∀ {L : Registry}, nodupKeys L →
    ∀ n : Str, lookupKey n (sortByName L) = lookupKey n L := by
  intro L
  induction L with
  | nil => intro _ n; rfl
  | cons x xs ih =>
    intro h n
    unfold nodupKeys at h
    simp only [List.map_cons, List.nodup_cons] at h
    obtain ⟨hx, hxs⟩ := h
    unfold sortByName
    have hx2 : x.1 ∉ (sortByName xs).map Prod.fst := by
      intro hcon
      have h2 : lookupKey x.1 (sortByName xs) = lookupKey x.1 xs := ih hxs x.1
      have h3 : lookupKey x.1 xs = none := lookupKey_eq_none_iff.mpr hx
      rw [h3] at h2
      exact (lookupKey_eq_none_iff.mp h2) hcon
    rw [lookup_insertByName hx2]
    obtain ⟨k, v⟩ := x
    simp only [lookupKey]
    by_cases hk : k = n
    · subst hk
      rw [if_pos rfl, if_pos rfl]
    · rw [if_neg hk, if_neg hk]
      exact ih hxs n

theorem mem_keys_setKey {α : Type} {m k : Str} {v : α} {l : List (Str × α)}
    (h : m ∈ (setKey k v l).map Prod.fst) : m ∈ l.map Prod.fst ∨ m = k := by
  rw [List.mem_map] at h
  obtain ⟨p, hp, hm⟩ := h
  rcases mem_setKey hp with h2 | h2
  · right
    rw [← hm, h2]
  · left
    rw [← hm]
    exact List.mem_map_of_mem _ h2

theorem nodupKeys_setKey {α : Type} {k : Str} {v : α} : ∀ {l : List (Str × α)},
    nodupKeys l → nodupKeys (setKey k v l) := by
  intro l
  induction l with
  | nil =>
    intro h
    simp [setKey, nodupKeys]
  | cons hd t ih =>
    intro h
    obtain ⟨k1, v1⟩ := hd
    unfold nodupKeys at h ⊢
    simp only [List.map_cons, List.nodup_cons] at h
    obtain ⟨h1, h2⟩ := h
    by_cases hk : k1 = k
    · subst hk
      have hset : setKey k1 v ((k1, v1) :: t) = (k1, v) :: t := by
        simp [setKey]
      rw [hset]
      simp only [List.map_cons, List.nodup_cons]
      exact ⟨h1, h2⟩
    · simp only [setKey, if_neg hk, List.map_cons, List.nodup_cons]
      constructor
      · intro hcon
        rcases mem_keys_setKey hcon with h3 | h3
        · exact h1 h3
        · exact hk h3
      · exact ih h2

theorem nodupKeys_add_participant {reg : Registry} {r : Ref}
    (h : nodupKeys reg) : nodupKeys (add_participant reg r) := by
  unfold add_participant
  split
  · exact nodupKeys_setKey h
  · split
    · exact nodupKeys_setKey h
    · exact h

theorem nodupKeys_exportRegistry (d : Doc) : nodupKeys (exportRegistry d) := by
  have hgen : ∀ (l : List Ref) (reg : Registry), nodupKeys reg →
      nodupKeys (l.foldl add_participant reg) := by
    intro l
    induction l with
    | nil => intro reg h; exact h
    | cons r t ih =>
      intro reg h
      exact ih _ (nodupKeys_add_participant h)
  exact hgen (docRefs d) [] (by simp [nodupKeys])

theorem mem_insertByName {x : Str × Option Cell} :
    ∀ {L : Registry} {p : Str × Option Cell}, p ∈ insertByName x L →
      p = x ∨ p ∈ L := by
  intro L
  induction L with
  | nil =>
    intro p h
    simp [insertByName] at h
    exact Or.inl h
  | cons y ys ih =>
    intro p h
    unfold insertByName at h
    by_cases hle : strLe x.1 y.1 = true
    · rw [if_pos hle] at h
      rcases List.mem_cons.mp h with h2 | h2
      · exact Or.inl h2
      · exact Or.inr h2
    · rw [if_neg hle] at h
      rcases List.mem_cons.mp h with h2 | h2
      · exact Or.inr (by simp [h2])
      · rcases ih h2 with h3 | h3
        · exact Or.inl h3
        · exact Or.inr (List.mem_cons_of_mem _ h3)

theorem mem_sortByName : ∀ {L : Registry} {p : Str × Option Cell},
    p ∈ sortByName L → p ∈ L := by
  intro L
  induction L with
  | nil => intro p h; cases h
  | cons x xs ih =>
    intro p h
    unfold sortByName at h
    rcases mem_insertByName h with h2 | h2
    · simp [h2]
    · exact List.mem_cons_of_mem _ (ih h2)

theorem nodupKeys_insertByName {x : Str × Option Cell} : ∀ {L : Registry},
    nodupKeys L → x.1 ∉ L.map Prod.fst → nodupKeys (insertByName x L) := by
  intro L
  induction L with
  | nil =>
    intro _ _
    simp [insertByName, nodupKeys]
  | cons y ys ih =>
    intro h hx
    unfold nodupKeys at h
    simp only [List.map_cons, List.nodup_cons] at h
    simp only [List.map_cons, List.mem_cons] at hx
    push_neg at hx
    obtain ⟨hy, hys⟩ := h
    obtain ⟨hx1, hx2⟩ := hx
    unfold insertByName
    by_cases hle : strLe x.1 y.1 = true
    · rw [if_pos hle]
      unfold nodupKeys
      simp only [List.map_cons, List.nodup_cons, List.mem_cons]
      refine ⟨?_, hy, hys⟩
      push_neg
      exact ⟨fun h2 => hx1 h2, hx2⟩
    · rw [if_neg hle]
      unfold nodupKeys
      simp only [List.map_cons, List.nodup_cons]
      constructor
      · intro hcon
        rw [List.mem_map] at hcon
        obtain ⟨q, hq, hfst⟩ := hcon
        rcases mem_insertByName hq with h3 | h3
        · rw [h3] at hfst
          exact hx1 hfst
        · exact hy (by rw [← hfst]; exact List.mem_map_of_mem _ h3)
      · exact ih hys hx2

theorem nodupKeys_sortByName : ∀ {L : Registry}, nodupKeys L →
    nodupKeys (sortByName L) := by
  intro L
  induction L with
  | nil => intro; simp [sortByName, nodupKeys]
  | cons x xs ih =>
    intro h
    unfold nodupKeys at h
    simp only [List.map_cons, List.nodup_cons] at h
    obtain ⟨hx, hxs⟩ := h
    unfold sortByName
    apply nodupKeys_insertByName (ih hxs)
    intro hcon
    rw [List.mem_map] at hcon
    obtain ⟨q, hq, hfst⟩ := hcon
    have := mem_sortByName hq
    exact hx (by rw [← hfst]; exact List.mem_map_of_mem _ this)

theorem mem_exportRegistry {d : Doc} {p : Str × Option Cell}
    (h : p ∈ exportRegistry d) : ∃ r ∈ docRefs d, p = (r.name, r.institution) := by
  unfold exportRegistry at h
  have hgen : ∀ (l : List Ref) (reg : Registry), p ∈ l.foldl add_participant reg →
      p ∈ reg ∨ ∃ r ∈ l, p = (r.name, r.institution) := by
    intro l
    induction l with
    | nil =>
      intro reg h2
      exact Or.inl h2
    | cons r t ih =>
      intro reg h2
      simp only [List.foldl_cons] at h2
      rcases ih _ h2 with h3 | ⟨r2, hr2, hp⟩
      · unfold add_participant at h3
        split at h3
        · rcases mem_setKey h3 with h4 | h4
          · exact Or.inr ⟨r, by simp, h4⟩
          · exact Or.inl h4
        · split at h3
          · rcases mem_setKey h3 with h4 | h4
            · exact Or.inr ⟨r, by simp, h4⟩
            · exact Or.inl h4
          · exact Or.inl h3
      · exact Or.inr ⟨r2, by simp [hr2], hp⟩
  rcases hgen (docRefs d) [] h with h2 | h2
  · cases h2
  · exact h2

/-- The Participants sheet rows written for a registry. -/
def rowsOfRegistry (L : Registry) : List PartRow :=
  L.map (fun p => ⟨.str p.1, instToCell p.2⟩)

theorem buildLookupAux_rows : ∀ (L : Registry) (idx : Nat) (reg : Registry)
    (ws : List Warning),
    (∀ p ∈ L, p.1 ≠ [] ∧ strip p.1 = p.1 ∧
      (p.2 = none ∨ ∃ c, p.2 = some c ∧ is_blank c = false)) →
    buildLookupAux idx reg ws (rowsOfRegistry L) =
      (L.foldl (fun acc p => setKey p.1 p.2 acc) reg, ws) := by
  intro L
  induction L with
  | nil => intro idx reg ws h; rfl
  | cons p t ih =>
    intro idx reg ws h
    obtain ⟨hne, hstr, hinst⟩ := h p (by simp)
    have hblank : is_blank (Cell.str p.1) = false := by
      simp only [is_blank]
      rw [hstr]
      exact decide_eq_false hne
    have hrow : rowsOfRegistry (p :: t) =
        ⟨Cell.str p.1, instToCell p.2⟩ :: rowsOfRegistry t := rfl
    rw [hrow]
    simp only [buildLookupAux]
    rw [if_neg (by rw [hblank]; exact Bool.false_ne_true)]
    have hdec : (if is_blank (instToCell p.2) then none else some (instToCell p.2)) = p.2 := by
      rcases hinst with h0 | ⟨c, hc, hcb⟩
      · rw [h0]
        rfl
      · rw [hc]
        simp only [instToCell]
        rw [if_neg (by rw [hcb]; exact Bool.false_ne_true)]
    have hclean : clean_text (.str p.1) = p.1 := clean_text_canonical hstr
    rw [hclean, hdec]
    rw [ih (idx + 1) (setKey p.1 p.2 reg) ws (fun q hq => h q (by simp [hq]))]
    rfl

theorem lookup_foldl_setKey : ∀ (L : Registry) (reg : Registry) (n : Str),
    nodupKeys L →
    lookupKey n (L.foldl (fun acc p => setKey p.1 p.2 acc) reg) =
      (match lookupKey n L with
       | some v => some v
       | none => lookupKey n reg) := by
  intro L
  induction L with
  | nil => intro reg n h; rfl
  | cons p t ih =>
    intro reg n h
    unfold nodupKeys at h
    simp only [List.map_cons, List.nodup_cons] at h
    obtain ⟨hp, ht⟩ := h
    simp only [List.foldl_cons]
    rw [ih _ n ht]
    obtain ⟨k, v⟩ := p
    by_cases hk : k = n
    · subst hk
      have hnone : lookupKey k t = none := lookupKey_eq_none_iff.mpr hp
      have hcons : lookupKey k ((k, v) :: t) = some v := by
        simp [lookupKey]
      rw [hnone, hcons, lookupKey_setKey_self]
    · simp only [lookupKey, if_neg hk]
      rcases ht2 : lookupKey n t with _ | w
      · rw [lookupKey_setKey_ne (fun he => hk he.symm)]
      · rfl

theorem importedRegistry_lookup (d : Doc)
    (hrefs : ∀ r ∈ docRefs d, r.name ≠ [] ∧ strip r.name = r.name ∧
      (r.institution = none ∨
        ∃ c, r.institution = some c ∧ is_blank c = false)) :
    buildLookup (exportParticipants d) =
      ((sortByName (exportRegistry d)).foldl (fun acc p => setKey p.1 p.2 acc) [], []) ∧
    ∀ n, lookupKey n (buildLookup (exportParticipants d)).1 =
      lookupKey n (exportRegistry d) := by
  have hsortnd : nodupKeys (sortByName (exportRegistry d)) :=
    nodupKeys_sortByName (nodupKeys_exportRegistry d)
  have hrows : exportParticipants d = rowsOfRegistry (sortByName (exportRegistry d)) := rfl
  have hcond : ∀ p ∈ sortByName (exportRegistry d), p.1 ≠ [] ∧ strip p.1 = p.1 ∧
      (p.2 = none ∨ ∃ c, p.2 = some c ∧ is_blank c = false) := by
    intro p hp
    obtain ⟨r, hr, hpr⟩ := mem_exportRegistry (mem_sortByName hp)
    obtain ⟨h1, h2, h3⟩ := hrefs r hr
    rw [hpr]
    exact ⟨h1, h2, h3⟩
  have hbuild : buildLookup (exportParticipants d) =
      ((sortByName (exportRegistry d)).foldl (fun acc p => setKey p.1 p.2 acc) [], []) := by
    rw [hrows]
    exact buildLookupAux_rows _ 0 [] [] hcond
  refine ⟨hbuild, ?_⟩
  intro n
  rw [hbuild]
  rw [lookup_foldl_setKey _ [] n hsortnd]
  rw [lookup_sortByName (nodupKeys_exportRegistry d) n]
  rcases hr : lookupKey n (exportRegistry d) with _ | v
  · rfl
  · rfl

/-! ## Round trip: re-resolving exported name lists is the identity -/

/-- The facts about one reference that make its exported name token resolve
back to exactly this reference without touching the registry. -/
def refResolvable (reg : Registry) (r : Ref) : Prop :=
  r.name ≠ [] ∧ strip r.name = r.name ∧ (∀ c ∈ r.name, ¬ c = ';') ∧
  parse_name_with_institution r.name = (r.name, none) ∧
  lookupKey r.name reg = some r.institution

theorem smart_lookup_people_roundtrip : ∀ (refs : List Ref) (st : LookupState),
    (∀ r ∈ refs, refResolvable st.reg r) →
    smart_lookup_people st (refs.map Ref.name) = (st, refs) := by
  intro refs
  induction refs with
  | nil => intro st h; rfl
  | cons r rest ih =>
    intro st h
    obtain ⟨hne, hstr, _, hparse, hlook⟩ := h r (by simp)
    have hblank : is_blank (.str r.name) = false := by
      simp only [is_blank]
      rw [hstr]
      exact decide_eq_false hne
    have hclean : clean_text_str r.name = r.name := clean_text_str_canonical hstr
    have h1 : smartLookupOne st r.name =
        (st, some ⟨clean_text_str r.name, r.institution⟩) :=
      smartLookupOne_found hblank hparse (by rw [hclean]; exact hne)
        (by rw [hclean]; exact hlook)
    rw [hclean] at h1
    simp only [List.map_cons, smart_lookup_people, h1]
    rw [ih st (fun r2 hr2 => h r2 (by simp [hr2]))]

/-- Re-parsing and re-resolving a joined name list gives back the refs. -/
theorem names_cell_roundtrip {refs : List Ref} {st : LookupState}
    (h : ∀ r ∈ refs, refResolvable st.reg r) :
    parse_names (.str (joinSemi (refs.map Ref.name))) = refs.map Ref.name ∧
    smart_lookup_people st (refs.map Ref.name) = (st, refs) := by
  constructor
  · apply parse_names_joinSemi
    intro n hn
    rw [List.mem_map] at hn
    obtain ⟨r, hr, rfl⟩ := hn
    obtain ⟨h1, h2, h3, _, _⟩ := h r hr
    exact ⟨h1, h2, h3⟩
  · exact smart_lookup_people_roundtrip refs st h

/-! ## Round trip: sessions sheet -/

theorem setKey_append_of_not_mem {α : Type} {k : Str} (v : α) :
    ∀ {l : List (Str × α)}, lookupKey k l = none → setKey k v l = l ++ [(k, v)] := by
  intro l
  induction l with
  | nil => intro; rfl
  | cons hd t ih =>
    intro h
    obtain ⟨k1, v1⟩ := hd
    by_cases hk : k1 = k
    · subst hk
      simp [lookupKey] at h
    · simp only [lookupKey, if_neg hk] at h
      simp only [setKey, if_neg hk, List.cons_append]
      rw [ih h]

theorem appendPaper_last {k : Str} (p : Paper) (s : Session) :
    ∀ {acc : List (Str × Session)}, lookupKey k acc = none →
      appendPaper k p (acc ++ [(k, s)]) =
        acc ++ [(k, { s with papers := s.papers ++ [p] })] := by
  intro acc
  induction acc with
  | nil =>
    intro
    simp [appendPaper]
  | cons hd t ih =>
    intro h
    obtain ⟨k1, v1⟩ := hd
    by_cases hk : k1 = k
    · subst hk
      simp [lookupKey] at h
    · simp only [lookupKey, if_neg hk] at h
      simp only [List.cons_append, appendPaper, if_neg hk]
      rw [List.append_eq, ih h]

/-- The per-session facts needed to reconstruct it from its sheet rows. -/
def sessionResolvable (reg : Registry) (pd : List (Str × Str)) (sid : Str)
    (s : Session) : Prop :=
  isDigitStr sid = true ∧
  strip s.type = s.type ∧ strip s.title = s.title ∧ strip s.description = s.description ∧
  (s.description = [] → lookupKey sid pd = none) ∧
  (∀ r ∈ s.presenters, refResolvable reg r) ∧
  (∀ p ∈ s.papers, strip p.title = p.title ∧ strip p.abstract = p.abstract ∧
    ∀ r ∈ p.authors, refResolvable reg r)

theorem paperRows_fold {pd : List (Str × Str)} {lk : LookupState} :
    ∀ (ps : List Paper) (acc : List (Str × Session)) (sid : Str) (s : Session),
      sid ≠ [] → lookupKey sid acc = none →
      (∀ p ∈ ps, strip p.title = p.title ∧ strip p.abstract = p.abstract ∧
        ∀ r ∈ p.authors, refResolvable lk.reg r) →
      (ps.map paperRow).foldl (sessStep pd) ⟨acc ++ [(sid, s)], some sid, lk⟩ =
        ⟨acc ++ [(sid, { s with papers := s.papers ++ ps })], some sid, lk⟩ := by
  intro ps
  induction ps with
  | nil =>
    intro acc sid s hsid hacc h
    simp
  | cons p rest ih =>
    intro acc sid s hsid hacc h
    obtain ⟨ht, ha, hr⟩ := h p (by simp)
    simp only [List.map_cons, List.foldl_cons]
    have hstep : sessStep pd ⟨acc ++ [(sid, s)], some sid, lk⟩ (paperRow p) =
        ⟨acc ++ [(sid, { s with papers := s.papers ++ [p] })], some sid, lk⟩ := by
      unfold sessStep paperRow
      dsimp only
      rw [if_neg (by decide : ¬ ("SESSION".toList.isPrefixOf ([] : Str)) = true)]
      unfold sessStep.sessPaperStep
      rw [if_pos]
      · obtain ⟨hj, hsl⟩ := @names_cell_roundtrip p.authors lk hr
        dsimp only
        rw [hj, hsl]
        have htitle : clean_text (.str p.title) = p.title := clean_text_canonical ht
        have habs : clean_text (.str p.abstract) = p.abstract := clean_text_canonical ha
        simp only [List.append_eq, Option.getD_some, htitle, habs]
        rw [appendPaper_last p s hacc]
      · simp [pyTruthyOptStr, hsid]
    rw [hstep]
    rw [ih acc sid _ hsid hacc (fun q hq => h q (by simp [hq]))]
    simp

theorem sessionRows_fold {pd : List (Str × Str)} {lk : LookupState}
    {sid : Str} {s : Session} :
    ∀ (acc : List (Str × Session)) (cur : Option Str),
      sessionResolvable lk.reg pd sid s →
      lookupKey sid acc = none →
      (sessionRowsOf sid s).foldl (sessStep pd) ⟨acc, cur, lk⟩ =
        ⟨acc ++ [(sid, s)], some sid, lk⟩ := by
  intro acc cur hres hacc
  obtain ⟨hdig, htype, htitle, hdesc, hdnone, hpres, hpap⟩ := hres
  have hsidne : sid ≠ [] := by
    simp only [isDigitStr, Bool.and_eq_true, decide_eq_true_eq] at hdig
    exact hdig.1
  have hpre : "SESSION".toList.isPrefixOf ("SESSION ".toList ++ sid) = true := by
    rw [List.isPrefixOf_iff_prefix]
    exact ⟨' ' :: sid, rfl⟩
  obtain ⟨hj, hsl⟩ := @names_cell_roundtrip s.presenters lk hpres
  have hstep : sessStep pd ⟨acc, cur, lk⟩ (sessionHeaderRow sid s) =
      ⟨acc ++ [(sid, { s with papers := [] })], some sid, lk⟩ := by
    unfold sessStep sessionHeaderRow
    dsimp only
    rw [if_pos hpre]
    rw [sid_roundtrip hdig, hj, hsl]
    rw [clean_text_canonical hdesc, clean_text_canonical htype,
        clean_text_canonical htitle]
    have hdescr :
        (if s.description = [] && pd ≠ [] then
          clean_text_str ((lookupKey sid pd).getD []) else s.description) =
          s.description := by
      split
      · rename_i hcond
        simp only [Bool.and_eq_true, decide_eq_true_eq] at hcond
        rw [hdnone hcond.1, hcond.1]
        rfl
      · rfl
    rw [hdescr]
    rw [setKey_append_of_not_mem _ hacc]
  simp only [sessionRowsOf, List.foldl_cons]
  rw [hstep]
  rw [paperRows_fold s.papers acc sid { s with papers := [] } hsidne hacc hpap]
  rfl

/-- The id made current, threading an incoming current id through a block of
exported sessions: the last session id, or the incoming one if none. -/
def lastKeyOr (cur : Option Str) : List (Str × Session) → Option Str
  | [] => cur
  | (k, _) :: t => lastKeyOr (some k) t

theorem sessions_fold {pd : List (Str × Str)} {lk : LookupState} :
    ∀ (l : List (Str × Session)) (acc : List (Str × Session)) (cur : Option Str),
      (∀ p ∈ l, sessionResolvable lk.reg pd p.1 p.2) →
      (∀ p ∈ l, lookupKey p.1 acc = none) →
      (l.map Prod.fst).Nodup →
      ((l.map (fun p => sessionRowsOf p.1 p.2)).flatten).foldl (sessStep pd)
          ⟨acc, cur, lk⟩ =
        ⟨acc ++ l, lastKeyOr cur l, lk⟩ := by
  intro l
  induction l with
  | nil =>
    intro acc cur _ _ _
    simp [lastKeyOr]
  | cons hd t ih =>
    intro acc cur hres hacc hnd
    obtain ⟨k, s⟩ := hd
    simp only [List.map_cons, List.flatten_cons, List.foldl_append]
    rw [sessionRows_fold acc cur (hres (k, s) (by simp)) (hacc (k, s) (by simp))]
    simp only [List.map_cons, List.nodup_cons] at hnd
    have hacc2 : ∀ p ∈ t, lookupKey p.1 (acc ++ [(k, s)]) = none := by
      intro p hp
      rw [lookupKey_eq_none_iff]
      simp only [List.map_append, List.mem_append, List.map_cons, List.map_nil,
        List.mem_singleton, not_or]
      constructor
      · exact lookupKey_eq_none_iff.mp (hacc p (by simp [hp]))
      · intro hk
        exact hnd.1 (by rw [← hk]; exact List.mem_map_of_mem Prod.fst hp)
    rw [ih (acc ++ [(k, s)]) (some k)
        (fun p hp => hres p (by simp [hp])) hacc2 hnd.2]
    simp [lastKeyOr]

/-! ## Round trip: sorting by integer id is the identity on canonical docs -/

theorem pyIntStr_isSome_of_digit {s : Str} (h : isDigitStr s = true) :
    (pyIntStr s).isSome = true := by
  have hall : s.all Char.isDigit = true := by
    simp only [isDigitStr, Bool.and_eq_true] at h
    exact h.2
  unfold pyIntStr
  dsimp only
  rw [strip_of_digits hall]
  split
  · exact absurd (List.all_eq_true.mp hall '-' (by simp)) (by decide)
  · exact absurd (List.all_eq_true.mp hall '+' (by simp)) (by decide)
  · rw [if_pos h]
    rfl

/-- Adjacent strict increase of a list of integers. -/
def strictIncr : List Int → Bool
  | a :: b :: t => decide (a < b) && strictIncr (b :: t)
  | _ => true

def sessionKeyed (l : List (Str × Session)) : List (Int × (Str × Session)) :=
  l.map (fun p => ((pyIntStr p.1).getD 0, p))

theorem mapM_keyed : ∀ {l : List (Str × Session)},
    (∀ p ∈ l, (pyIntStr p.1).isSome = true) →
    l.mapM (fun p => (pyIntStr p.1).map (fun k => (k, p))) = some (sessionKeyed l) := by
  intro l
  induction l with
  | nil => intro; rfl
  | cons p t ih =>
    intro h
    have hp := h p (by simp)
    rw [Option.isSome_iff_exists] at hp
    obtain ⟨v, hv⟩ := hp
    rw [List.mapM_cons, ih (fun q hq => h q (by simp [hq]))]
    simp [sessionKeyed, hv]

theorem sortByKey_sorted : ∀ {l : List (Int × (Str × Session))},
    strictIncr (l.map Prod.fst) = true → sortByKey l = l := by
  intro l
  induction l with
  | nil => intro; rfl
  | cons x xs ih =>
    intro h
    have hxs : strictIncr (xs.map Prod.fst) = true := by
      cases xs with
      | nil => rfl
      | cons y ys =>
        simp only [List.map_cons, strictIncr, Bool.and_eq_true] at h
        exact h.2
    unfold sortByKey
    rw [ih hxs]
    cases xs with
    | nil => rfl
    | cons y ys =>
      simp only [List.map_cons, strictIncr, Bool.and_eq_true, decide_eq_true_eq] at h
      unfold insertByKey
      rw [if_pos h.1]

theorem sessionKeyed_snd (l : List (Str × Session)) :
    (sessionKeyed l).map (fun q => q.2) = l := by
  induction l with
  | nil => rfl
  | cons p t ih =>
    simp only [sessionKeyed, List.map_cons] at ih ⊢
    rw [ih]

theorem sortSessionsByInt_id {l : List (Str × Session)}
    (hsome : ∀ p ∈ l, (pyIntStr p.1).isSome = true)
    (hinc : strictIncr (l.map (fun p => (pyIntStr p.1).getD 0)) = true) :
    sortSessionsByInt l = some l := by
  unfold sortSessionsByInt
  rw [mapM_keyed hsome]
  show some ((sortByKey (sessionKeyed l)).map (fun q => q.2)) = some l
  have hkeys : (sessionKeyed l).map Prod.fst =
      l.map (fun p => (pyIntStr p.1).getD 0) := by
    simp [sessionKeyed, List.map_map]
  rw [sortByKey_sorted (by rw [hkeys]; exact hinc)]
  rw [sessionKeyed_snd]

theorem exportSessionRows_id {d : Doc}
    (hsome : ∀ p ∈ d.sessions, (pyIntStr p.1).isSome = true)
    (hinc : strictIncr (d.sessions.map (fun p => (pyIntStr p.1).getD 0)) = true) :
    exportSessionRows d =
      some ((d.sessions.map (fun p => sessionRowsOf p.1 p.2)).flatten) := by
  unfold exportSessionRows
  rw [sortSessionsByInt_id hsome hinc]
  rfl

/-! ## Round trip: events sheet -/

/-- The (day, time, venue) slot key of an event. -/
def tripleOf (e : Event) : Str × Str × Str := (e.day, e.time, e.venue)

theorem find_triple_self : ∀ {evs : List Event} {e : Event},
    (evs.map tripleOf).Nodup → e ∈ evs →
    evs.find? (fun o => o.time = e.time && o.venue = e.venue && o.day = e.day) =
      some e := by
  intro evs
  induction evs with
  | nil => intro e _ he; cases he
  | cons a t ih =>
    intro e hnd he
    simp only [List.map_cons, List.nodup_cons] at hnd
    rcases List.mem_cons.mp he with rfl | he2
    · rw [List.find?_cons_of_pos]
      simp
    · rw [List.find?_cons_of_neg, ih hnd.2 he2]
      simp only [Bool.and_eq_true, decide_eq_true_eq, not_and]
      intro h1 h2
      exact hnd.1 (by
        have : tripleOf a = tripleOf e := by
          unfold tripleOf
          rw [h1.1, h1.2, h2]
        rw [this]
        exact List.mem_map_of_mem tripleOf he2)

/-- The facts about one event that make its exported row rebuild it
exactly (films always come back `none`; they are re-attached later). -/
def eventResolvable (reg : Registry) (orig : List Event) (e : Event) : Prop :=
  strip e.day = e.day ∧ format_time_value (.str e.time) = e.time ∧
  strip e.venue = e.venue ∧ strip e.content = e.content ∧ strip e.type = e.type ∧
  ¬(e.day = [] ∧ e.time = [] ∧ e.venue = [] ∧ e.content = [] ∧ e.type = []) ∧
  (e.presenters = none ∨
    ∃ ps, e.presenters = some ps ∧ ps ≠ [] ∧ ∀ r ∈ ps, refResolvable reg r) ∧
  (e.type = "plenary".toList →
    (e.abstract = none ∨ ∃ a, e.abstract = some a ∧ a ≠ [] ∧ strip a = a)) ∧
  (e.type ≠ "plenary".toList → e.abstract = none) ∧
  orig.find? (fun o => o.time = e.time && o.venue = e.venue && o.day = e.day) =
    some e ∧
  e.headshot_url = none ∧ e.logo_url = none

theorem buildEvent_roundtrip {orig : List Event} {lk : LookupState} {e : Event}
    (h : eventResolvable lk.reg orig e) :
    buildEvent orig lk (eventRowOf e) = (lk, some { e with films := none }) := by
  obtain ⟨hday, htime, hvenue, hcontent, htype, hnb, hpres, habsp, habsnp,
    hfind, hhead, hlogo⟩ := h
  unfold buildEvent eventRowOf
  dsimp only
  rw [clean_text_canonical hday, clean_text_canonical hvenue,
      clean_text_canonical hcontent, clean_text_canonical htype, htime]
  rw [if_neg (by
    simp only [Bool.and_eq_true, decide_eq_true_eq, not_and]
    intro h1 h2
    exact hnb ⟨h1.1.1.1, h1.1.1.2, h1.1.2, h1.2, h2⟩)]
  rw [hfind]
  have hpresEq :
      (let presenter_names := parse_names (.str (match e.presenters with
          | some ps => joinSemi (ps.map Ref.name) | none => []))
       let lp := if presenter_names ≠ [] then smart_lookup_people lk presenter_names
                 else (lk, [])
       (lp.1, if presenter_names ≠ [] then some lp.2 else (none : Option (List Ref)))) =
      (lk, e.presenters) := by
    rcases hpres with hnone | ⟨ps, hps, hpne, hres⟩
    · rw [hnone]
      rfl
    · rw [hps]
      obtain ⟨hj, hsl⟩ := @names_cell_roundtrip ps lk hres
      dsimp only
      rw [hj]
      have hmapne : ps.map Ref.name ≠ [] := by
        simp only [ne_eq, List.map_eq_nil_iff]
        exact hpne
      rw [if_pos hmapne, if_pos hmapne, hsl]
  have habsEq :
      (if e.type = "plenary".toList then
        (let a := clean_text (.str (if e.type = "plenary".toList then
            e.abstract.getD [] else []));
         if a ≠ [] then some a else none)
       else (none : Option Str)) = e.abstract := by
    by_cases hp : e.type = "plenary".toList
    · rw [if_pos hp, if_pos hp]
      rcases habsp hp with hnone | ⟨a, ha, hane, hatrim⟩
      · rw [hnone]
        rfl
      · rw [ha]
        simp only [Option.getD_some]
        rw [clean_text_canonical hatrim, if_pos hane]
    · rw [if_neg hp, habsnp hp]
  have h1 := congrArg Prod.fst hpresEq
  have h2 := congrArg Prod.snd hpresEq
  dsimp only at h1 h2 ⊢
  rw [h1, h2, habsEq]
  rw [hhead, hlogo]

theorem processEvents_roundtrip {orig : List Event} {lk : LookupState} :
    ∀ (evs : List Event), (∀ e ∈ evs, eventResolvable lk.reg orig e) →
    processEvents lk orig (evs.map eventRowOf) =
      (lk, evs.map (fun e => { e with films := none })) := by
  intro evs
  induction evs with
  | nil => intro; rfl
  | cons e t ih =>
    intro h
    simp only [List.map_cons, processEvents]
    rw [buildEvent_roundtrip (h e (by simp))]
    rw [ih (fun e2 he2 => h e2 (by simp [he2]))]

theorem filterEvents_nodrop {sessions : List (Str × Session)} {evs : List Event}
    (h : ∀ e ∈ evs, dropCond sessions e = false) :
    filterEvents sessions evs = (evs, []) := by
  rw [filterEvents_eq]
  have h1 : evs.filter (fun e => !(dropCond sessions e)) = evs := by
    rw [List.filter_eq_self]
    intro e he
    rw [h e he]
    rfl
  have h2 : evs.filterMap (fun e =>
      if dropCond sessions e then
        some (Warning.droppedEvent e.content e.day e.time e.venue
          (e.session_num.getD []))
      else none) = [] := by
    rw [List.filterMap_eq_nil_iff]
    intro e he
    rw [h e he]
    rfl
  rw [h1, h2]

/-! ## Round trip: screenings sheet -/

theorem appendFilm_last {k : Str} (f : Film) (fs : List Film) :
    ∀ {acc : List (Str × List Film)}, lookupKey k acc = none →
      appendFilm k f (acc ++ [(k, fs)]) = acc ++ [(k, fs ++ [f])] := by
  intro acc
  induction acc with
  | nil =>
    intro
    simp [appendFilm]
  | cons hd t ih =>
    intro h
    obtain ⟨k1, v1⟩ := hd
    by_cases hk : k1 = k
    · subst hk
      simp [lookupKey] at h
    · simp only [lookupKey, if_neg hk] at h
      simp only [List.cons_append, appendFilm, if_neg hk]
      rw [List.append_eq, ih h]

theorem filmNumField_of_opt (y : Option Int) :
    filmNumField (match y with | some n => .num n | none => .blank) = some y := by
  cases y <;> rfl

theorem rstrip_append {v : Str} (w : Str) (hv : rstrip v = v) (hvne : v ≠ []) :
    rstrip (w ++ v) = w ++ v := by
  have h1 : v.reverse.dropWhile isSpace = v.reverse := by
    have h0 := congrArg List.reverse hv
    unfold rstrip at h0
    rw [List.reverse_reverse] at h0
    exact h0
  cases hvr : v.reverse with
  | nil =>
    exact absurd (by simpa using congrArg List.reverse hvr) hvne
  | cons c t =>
    rw [hvr] at h1
    have hc : isSpace c = false := head_not_space h1
    unfold rstrip
    rw [List.reverse_append, hvr, List.cons_append,
      List.dropWhile_cons_of_neg (by simp [hc]), ← List.cons_append, ← hvr,
      ← List.reverse_append, List.reverse_reverse]

theorem strip_append_of_ends {d v : Str} (x : Str) (hd : strip d = d) (hdne : d ≠ [])
    (hv : strip v = v) (hvne : v ≠ []) :
    strip (d ++ x ++ v) = d ++ x ++ v := by
  have hld : lstrip d = d := lstrip_of_strip_eq hd
  have hrv : rstrip v = v := rstrip_of_strip_eq hv
  cases hdc : d with
  | nil => exact absurd hdc hdne
  | cons c t =>
    rw [hdc] at hld
    have hc : isSpace c = false := head_not_space hld
    unfold strip
    rw [show ((c :: t : Str) ++ x ++ v) = c :: (t ++ x ++ v) by simp]
    rw [show lstrip (c :: (t ++ x ++ v)) = c :: (t ++ x ++ v) from
      lstrip_cons_of_not_space hc]
    rw [show (c :: (t ++ x ++ v) : Str) = (c :: (t ++ x)) ++ v by simp]
    exact rstrip_append _ hrv hvne

theorem lookupKey_of_mem_nodup {α : Type} {k : Str} {v : α} :
    ∀ {l : List (Str × α)}, (l.map Prod.fst).Nodup → (k, v) ∈ l →
      lookupKey k l = some v := by
  intro l
  induction l with
  | nil => intro _ h; cases h
  | cons hd t ih =>
    intro hnd hm
    obtain ⟨k1, v1⟩ := hd
    simp only [List.map_cons, List.nodup_cons] at hnd
    rcases List.mem_cons.mp hm with heq | hm2
    · have h1 : k1 = k := (show k = k1 from congrArg Prod.fst heq).symm
      have h2 : v1 = v := (show v = v1 from congrArg Prod.snd heq).symm
      subst h1
      subst h2
      simp [lookupKey]
    · have hk1 : k1 ≠ k := by
        intro hcon
        subst hcon
        exact hnd.1 (List.mem_map_of_mem Prod.fst hm2)
      simp only [lookupKey, if_neg hk1]
      exact ih hnd.2 hm2

def screeningEvents (evs : List Event) : List Event :=
  evs.filter (fun e => e.type = "screening".toList)

/-- The screening-films dict rebuilt by the screenings loop on an
unedited export: one entry per screening event, in document order. -/
def slotFilms (evs : List Event) : List (Str × List Film) :=
  (screeningEvents evs).map (fun e => (slotLabel e, e.films.getD []))

/-- The current slot after the screenings loop. -/
def scrLast (cur : Option Str) : List Event → Option Str
  | [] => cur
  | e :: t => scrLast (if e.type = "screening".toList then some (slotLabel e) else cur) t

def filmResolvable (reg : Registry) (f : Film) : Prop :=
  f.title ≠ [] ∧ strip f.title = f.title ∧ ∀ r ∈ f.creatives, refResolvable reg r

/-- The facts about one event that make the screenings sheet round-trip. -/
def scrResolvable (reg : Registry) (e : Event) : Prop :=
  e.type = "screening".toList →
  (strip e.day = e.day ∧ e.day ≠ [] ∧ strip e.venue = e.venue ∧ e.venue ≠ [] ∧
   ∀ f ∈ e.films.getD [], filmResolvable reg f)

theorem filmNumField_year (f : Film) :
    filmNumField (filmRowOf f).year = some f.year := by
  obtain ⟨t, y, dur, cs⟩ := f
  cases y <;> rfl

theorem filmNumField_duration (f : Film) :
    filmNumField (filmRowOf f).duration = some f.duration := by
  obtain ⟨t, y, dur, cs⟩ := f
  cases dur <;> rfl

theorem scrStep_film {lk : LookupState} {label : Str} {sf : List (Str × List Film)}
    {f : Film} (hlabel : label ≠ []) (hres : filmResolvable lk.reg f) :
    scrStep ⟨some label, sf, lk⟩ (filmRowOf f) =
      .ok ⟨some label, appendFilm label f sf, lk⟩ := by
  obtain ⟨hne, htrim, hcres⟩ := hres
  obtain ⟨hj, hsl⟩ := @names_cell_roundtrip f.creatives lk hcres
  have hb : is_blank (.str f.title) = false := by
    simp only [is_blank]
    rw [htrim]
    exact decide_eq_false hne
  have hp : pyTruthyOptStr (some label) = true := by
    simp [pyTruthyOptStr, hlabel]
  unfold scrStep
  rw [show (filmRowOf f).slot = .str [] from rfl]
  rw [show is_blank (Cell.str ([] : Str)) = true from rfl]
  simp only [Bool.not_true, Bool.false_eq_true, if_false]
  rw [show (filmRowOf f).film_title = .str f.title from rfl, hb, hp]
  simp only [Bool.not_false, Bool.and_self, if_true]
  rw [filmNumField_year f]
  dsimp only
  rw [filmNumField_duration f]
  dsimp only
  rw [show (filmRowOf f).creatives = .str (joinSemi (f.creatives.map Ref.name)) from rfl]
  rw [hj, hsl]
  rw [clean_text_canonical htrim]
  rfl

theorem filmRows_fold {lk : LookupState} {label : Str} (hlabel : label ≠ []) :
    ∀ (films : List Film) (acc : List (Str × List Film)) (fs0 : List Film),
      lookupKey label acc = none →
      (∀ f ∈ films, filmResolvable lk.reg f) →
      processScreeningsAux ⟨some label, acc ++ [(label, fs0)], lk⟩
          (films.map filmRowOf) =
        .ok ⟨some label, acc ++ [(label, fs0 ++ films)], lk⟩ := by
  intro films
  induction films with
  | nil =>
    intro acc fs0 _ _
    simp [processScreeningsAux]
  | cons f rest ih =>
    intro acc fs0 hacc h
    simp only [List.map_cons, processScreeningsAux]
    rw [scrStep_film hlabel (h f (by simp))]
    rw [appendFilm_last f fs0 hacc]
    show processScreeningsAux
      ⟨some label, acc ++ [(label, fs0 ++ [f])], lk⟩ (rest.map filmRowOf) = _
    rw [ih acc (fs0 ++ [f]) hacc (fun g hg => h g (by simp [hg]))]
    simp [List.append_assoc]

theorem processScreeningsAux_append (st : ScrState) (xs ys : List ScrRow) :
    processScreeningsAux st (xs ++ ys) =
      match processScreeningsAux st xs with
      | .error e => .error e
      | .ok st1 => processScreeningsAux st1 ys := by
  induction xs generalizing st with
  | nil => rfl
  | cons r rest ih =>
    rw [List.cons_append]
    simp only [processScreeningsAux]
    cases scrStep st r with
    | error e => rfl
    | ok st1 => exact ih st1

theorem screenings_fold {lk : LookupState} :
    ∀ (evs : List Event) (cur : Option Str) (acc : List (Str × List Film)),
      (∀ e ∈ evs, scrResolvable lk.reg e) →
      (acc.map Prod.fst ++ (screeningEvents evs).map slotLabel).Nodup →
      processScreeningsAux ⟨cur, acc, lk⟩ ((evs.map screeningRowsOf).flatten) =
        .ok ⟨scrLast cur evs, acc ++ slotFilms evs, lk⟩ := by
  intro evs
  induction evs with
  | nil =>
    intro cur acc _ _
    simp [processScreeningsAux, slotFilms, screeningEvents, scrLast]
  | cons e t ih =>
    intro cur acc hres hnd
    by_cases hscr : e.type = "screening".toList
    · obtain ⟨hday, hdayne, hvenue, hvenuene, hfilms⟩ := hres e (by simp) hscr
      have hlab : strip (slotLabel e) = slotLabel e := by
        have h0 := strip_append_of_ends
          (" - ".toList ++ e.time ++ " - ".toList) hday hdayne hvenue hvenuene
        have hsh : e.day ++ (" - ".toList ++ e.time ++ " - ".toList) ++ e.venue =
            slotLabel e := by
          unfold slotLabel
          simp [List.append_assoc]
        rw [hsh] at h0
        exact h0
      have hlabne : slotLabel e ≠ [] := by
        unfold slotLabel
        cases hd : e.day with
        | nil => exact absurd hd hdayne
        | cons c t2 => simp
      have hb : is_blank (.str (slotLabel e)) = false := by
        simp only [is_blank]
        rw [hlab]
        exact decide_eq_false hlabne
      have hse : screeningEvents (e :: t) = e :: screeningEvents t := by
        unfold screeningEvents
        rw [List.filter_cons, if_pos (by simp [hscr])]
      rw [hse, List.map_cons] at hnd
      have hnotin : slotLabel e ∉ acc.map Prod.fst := by
        rw [List.nodup_append] at hnd
        intro hcon
        exact hnd.2.2 hcon (by simp)
      have hacc : lookupKey (slotLabel e) acc = none :=
        lookupKey_eq_none_iff.mpr hnotin
      have hkey : hasKey (slotLabel e) acc = false := by
        unfold hasKey
        rw [hacc]
        rfl
      have hrows : screeningRowsOf e =
          { slot := .str (slotLabel e), film_title := .str [], year := .str [],
            duration := .str [], creatives := .str [] } ::
            (e.films.getD []).map filmRowOf := by
        unfold screeningRowsOf
        rw [if_pos hscr]
      have hstep : scrStep ⟨cur, acc, lk⟩
          { slot := .str (slotLabel e), film_title := .str [], year := .str [],
            duration := .str [], creatives := .str [] } =
          .ok ⟨some (slotLabel e), acc ++ [(slotLabel e, [])], lk⟩ := by
        unfold scrStep
        dsimp only
        rw [hb]
        simp only [Bool.not_false, if_true]
        rw [show cellToStr (.str (slotLabel e)) = slotLabel e from rfl, hlab, hkey]
        simp
      simp only [List.map_cons, List.flatten_cons, hrows, List.cons_append,
        processScreeningsAux]
      rw [hstep]
      show processScreeningsAux ⟨some (slotLabel e), acc ++ [(slotLabel e, [])], lk⟩
        ((e.films.getD []).map filmRowOf ++ (t.map screeningRowsOf).flatten) = _
      rw [processScreeningsAux_append]
      rw [filmRows_fold hlabne (e.films.getD []) acc [] hacc hfilms]
      show processScreeningsAux
        ⟨some (slotLabel e), acc ++ [(slotLabel e, [] ++ e.films.getD [])], lk⟩
        ((t.map screeningRowsOf).flatten) = _
      rw [List.nil_append]
      have hnd2 : ((acc ++ [(slotLabel e, e.films.getD [])]).map Prod.fst ++
          (screeningEvents t).map slotLabel).Nodup := by
        simp only [List.map_append, List.map_cons, List.map_nil]
        rw [List.append_assoc]
        simp only [List.singleton_append]
        exact hnd
      rw [ih (some (slotLabel e)) (acc ++ [(slotLabel e, e.films.getD [])])
        (fun e2 he2 => hres e2 (by simp [he2])) hnd2]
      have hsf : slotFilms (e :: t) =
          (slotLabel e, e.films.getD []) :: slotFilms t := by
        unfold slotFilms
        rw [hse, List.map_cons]
      have hslast : scrLast cur (e :: t) = scrLast (some (slotLabel e)) t := by
        show scrLast (if e.type = "screening".toList then some (slotLabel e) else cur) t = _
        rw [if_pos hscr]
      rw [hsf, hslast, List.append_assoc, List.singleton_append]
    · have hrows : screeningRowsOf e = [] := by
        unfold screeningRowsOf
        rw [if_neg hscr]
      have hse : screeningEvents (e :: t) = screeningEvents t := by
        unfold screeningEvents
        rw [List.filter_cons, if_neg (by simpa using hscr)]
      simp only [List.map_cons, List.flatten_cons, hrows, List.nil_append]
      rw [ih cur acc (fun e2 he2 => hres e2 (by simp [he2])) (by rw [← hse]; exact hnd)]
      have hsf : slotFilms (e :: t) = slotFilms t := by
        unfold slotFilms
        rw [hse]
      have hsl : scrLast cur (e :: t) = scrLast cur t := by
        show scrLast (if e.type = "screening".toList then some (slotLabel e) else cur) t = _
        rw [if_neg hscr]
      rw [hsf, hsl]

theorem attachFilms_screening {evs : List Event} {e : Event} {fs : List Film}
    (hnd : ((screeningEvents evs).map slotLabel).Nodup)
    (he : e ∈ evs) (hscr : e.type = "screening".toList) (hfs : e.films = some fs) :
    attachFilms (slotFilms evs) { e with films := none } = e := by
  have hmem : (slotLabel e, e.films.getD []) ∈ slotFilms evs := by
    unfold slotFilms
    apply List.mem_map_of_mem
    unfold screeningEvents
    rw [List.mem_filter]
    exact ⟨he, by simp [hscr]⟩
  have hkeys : ((slotFilms evs).map Prod.fst).Nodup := by
    unfold slotFilms
    rw [List.map_map]
    exact hnd
  have hlook : lookupKey (slotLabel e) (slotFilms evs) = some (e.films.getD []) :=
    lookupKey_of_mem_nodup hkeys hmem
  unfold slotLabel at hlook
  unfold attachFilms
  rw [if_pos (show ({ e with films := none } : Event).type = _ from hscr)]
  dsimp only
  rw [hlook, hfs]
  simp only [Option.getD_some]
  rw [← hfs]

theorem attachFilms_nonscreening {sf : List (Str × List Film)} {e : Event}
    (hscr : ¬ e.type = "screening".toList) (hfs : e.films = none) :
    attachFilms sf { e with films := none } = e := by
  unfold attachFilms
  rw [if_neg (show ¬ ({ e with films := none } : Event).type = _ from hscr)]
  rw [← hfs]

/-! ## The canonical-form predicate -/

/-- A participant name as the export writes it and the import re-reads it:
non-empty, free of surrounding whitespace and semicolons, and not of the
`Name (Institution)` shape the inline parser would split. -/
def canonicalNameB (n : Str) : Bool :=
  decide (n ≠ []) && decide (strip n = n) && n.all (fun c => decide (¬ c = ';')) &&
  decide (parse_name_with_institution n = (n, none))

/-- A stored institution: null, or a non-blank cell value. -/
def canonicalInstB : Option Cell → Bool
  | none => true
  | some c => !(is_blank c)

def canonicalRefB (r : Ref) : Bool :=
  canonicalNameB r.name && canonicalInstB r.institution

/-- Any two references sharing a name agree on the institution. -/
def consistentRefsB (l : List Ref) : Bool :=
  l.all (fun r1 => l.all (fun r2 =>
    !(decide (r1.name = r2.name)) || decide (r1.institution = r2.institution)))

def canonicalPaperB (p : Paper) : Bool :=
  decide (strip p.title = p.title) && decide (strip p.abstract = p.abstract)

def canonicalSessionB (pd : List (Str × Str)) (sid : Str) (s : Session) : Bool :=
  isDigitStr sid && decide (strip s.type = s.type) &&
  decide (strip s.title = s.title) &&
  decide (strip s.description = s.description) &&
  (decide (s.description ≠ []) || decide (lookupKey sid pd = none)) &&
  s.papers.all canonicalPaperB

def canonicalFilmB (f : Film) : Bool :=
  decide (f.title ≠ []) && decide (strip f.title = f.title)

def canonicalEventB (sessions : List (Str × Session)) (e : Event) : Bool :=
  decide (strip e.day = e.day) && decide (format_time_value (.str e.time) = e.time) &&
  decide (strip e.venue = e.venue) && decide (strip e.content = e.content) &&
  decide (strip e.type = e.type) &&
  !(decide (e.day = []) && decide (e.time = []) && decide (e.venue = []) &&
    decide (e.content = []) && decide (e.type = [])) &&
  (match e.session_num with
   | none => true
   | some sn => hasKey sn sessions) &&
  decide (e.presenters ≠ some []) &&
  (match e.abstract with
   | none => true
   | some a => decide (e.type = "plenary".toList) && decide (a ≠ []) &&
       decide (strip a = a)) &&
  decide (e.headshot_url = none) && decide (e.logo_url = none) &&
  (if e.type = "screening".toList then
     e.films.isSome && decide (e.day ≠ []) && decide (e.venue ≠ []) &&
     (e.films.getD []).all canonicalFilmB
   else decide (e.films = none))

/-- A document in the canonical form the exporter itself produces: the
form on which extract-then-reconcile is the identity. -/
def canonicalDoc (d : Doc) : Bool :=
  (docRefs d).all canonicalRefB &&
  consistentRefsB (docRefs d) &&
  d.sessions.all (fun p => canonicalSessionB d.panel_descriptions p.1 p.2) &&
  decide ((d.sessions.map Prod.fst).Nodup) &&
  strictIncr (d.sessions.map (fun p => (pyIntStr p.1).getD 0)) &&
  d.events.all (canonicalEventB d.sessions) &&
  decide ((d.events.map tripleOf).Nodup) &&
  decide (((screeningEvents d.events).map slotLabel).Nodup) &&
  decide (d.panel_descriptions = rebuiltPanelDescriptions d.sessions)

/-! ## Bridging the canonical form to the per-phase resolvability facts -/

theorem canonicalName_spec {n : Str} (h : canonicalNameB n = true) :
    n ≠ [] ∧ strip n = n ∧ (∀ c ∈ n, ¬ c = ';') ∧
    parse_name_with_institution n = (n, none) := by
  simp only [canonicalNameB, Bool.and_eq_true, decide_eq_true_eq,
    List.all_eq_true] at h
  obtain ⟨⟨⟨h1, h2⟩, h3⟩, h4⟩ := h
  exact ⟨h1, h2, fun c hc => by simpa using h3 c hc, h4⟩

theorem mem_docRefs_session {d : Doc} {k : Str} {s : Session} {r : Ref}
    (hks : (k, s) ∈ d.sessions) (hr : r ∈ sessionRefs s) : r ∈ docRefs d := by
  unfold docRefs
  rw [List.mem_append]
  left
  rw [List.mem_flatten]
  refine ⟨sessionRefs s, ?_, hr⟩
  rw [List.mem_map]
  exact ⟨(k, s), hks, rfl⟩

theorem mem_docRefs_event {d : Doc} {e : Event} {r : Ref}
    (he : e ∈ d.events) (hr : r ∈ eventRefs e) : r ∈ docRefs d := by
  unfold docRefs
  rw [List.mem_append]
  right
  rw [List.mem_flatten]
  refine ⟨eventRefs e, ?_, hr⟩
  rw [List.mem_map]
  exact ⟨e, he, rfl⟩

theorem refResolvable_of_canonical {d : Doc} {reg : Registry} {r : Ref}
    (hall : (docRefs d).all canonicalRefB = true)
    (hcons : consistentRefsB (docRefs d) = true)
    (hlk : ∀ n, lookupKey n reg = lookupKey n (exportRegistry d))
    (hmem : r ∈ docRefs d) :
    refResolvable reg r := by
  have hr := List.all_eq_true.mp hall r hmem
  simp only [canonicalRefB, Bool.and_eq_true] at hr
  obtain ⟨hn, hname2, hname3, hname4⟩ := canonicalName_spec hr.1
  refine ⟨hn, hname2, hname3, hname4, ?_⟩
  rw [hlk]
  apply exportRegistry_lookup ?_ hmem
  intro r1 h1 r2 h2 hname
  have hc := List.all_eq_true.mp (List.all_eq_true.mp hcons r1 h1) r2 h2
  simp only [Bool.or_eq_true, Bool.not_eq_true', decide_eq_true_eq,
    decide_eq_false_iff_not] at hc
  rcases hc with hno | hi
  · exact absurd hname hno
  · exact hi

theorem canonicalRef_inst {r : Ref} (h : canonicalRefB r = true) :
    r.institution = none ∨ ∃ c, r.institution = some c ∧ is_blank c = false := by
  simp only [canonicalRefB, Bool.and_eq_true] at h
  have h2 := h.2
  cases hio : r.institution with
  | none => exact Or.inl rfl
  | some c =>
    right
    refine ⟨c, rfl, ?_⟩
    rw [hio] at h2
    simp only [canonicalInstB, Bool.not_eq_true'] at h2
    exact h2

theorem sessionResolvable_of_canonical {d : Doc} {reg : Registry}
    (hall : (docRefs d).all canonicalRefB = true)
    (hcons : consistentRefsB (docRefs d) = true)
    (hlk : ∀ n, lookupKey n reg = lookupKey n (exportRegistry d))
    {k : Str} {s : Session}
    (hks : (k, s) ∈ d.sessions)
    (hc : canonicalSessionB d.panel_descriptions k s = true) :
    sessionResolvable reg d.panel_descriptions k s := by
  simp only [canonicalSessionB, Bool.and_eq_true, decide_eq_true_eq,
    Bool.or_eq_true, List.all_eq_true] at hc
  obtain ⟨⟨⟨⟨⟨hdig, htype⟩, htitle⟩, hdesc⟩, hdd⟩, hpap⟩ := hc
  refine ⟨hdig, htype, htitle, hdesc, ?_, ?_, ?_⟩
  · intro hde
    rcases hdd with h1 | h1
    · exact absurd hde h1
    · exact h1
  · intro r hr
    exact refResolvable_of_canonical hall hcons hlk
      (mem_docRefs_session hks (by
        unfold sessionRefs
        exact List.mem_append_left _ hr))
  · intro p hp
    have hpc := hpap p hp
    simp only [canonicalPaperB, Bool.and_eq_true, decide_eq_true_eq] at hpc
    refine ⟨hpc.1, hpc.2, ?_⟩
    intro r hr
    apply refResolvable_of_canonical hall hcons hlk
    apply mem_docRefs_session hks
    unfold sessionRefs
    apply List.mem_append_right
    rw [List.mem_flatten]
    exact ⟨p.authors, List.mem_map_of_mem Paper.authors hp, hr⟩

theorem eventResolvable_of_canonical {d : Doc} {reg : Registry}
    (hall : (docRefs d).all canonicalRefB = true)
    (hcons : consistentRefsB (docRefs d) = true)
    (hlk : ∀ n, lookupKey n reg = lookupKey n (exportRegistry d))
    (hnd : (d.events.map tripleOf).Nodup)
    {e : Event} (he : e ∈ d.events)
    (hc : canonicalEventB d.sessions e = true) :
    eventResolvable reg d.events e := by
  simp only [canonicalEventB, Bool.and_eq_true, decide_eq_true_eq] at hc
  obtain ⟨⟨⟨⟨⟨⟨⟨⟨⟨⟨⟨hday, htime⟩, hvenue⟩, hcontent⟩, htype⟩, hnb⟩, hsn⟩,
    hpne⟩, habs⟩, hhead⟩, hlogo⟩, hfil⟩ := hc
  refine ⟨hday, htime, hvenue, hcontent, htype, ?_, ?_, ?_, ?_,
    find_triple_self hnd he, hhead, hlogo⟩
  · intro hcon
    obtain ⟨h1, h2, h3, h4, h5⟩ := hcon
    simp [h1, h2, h3, h4, h5] at hnb
  · cases hps : e.presenters with
    | none => exact Or.inl rfl
    | some ps =>
      right
      refine ⟨ps, rfl, ?_, ?_⟩
      · intro hcon
        rw [hps, hcon] at hpne
        exact hpne rfl
      · intro r hr
        apply refResolvable_of_canonical hall hcons hlk
        apply mem_docRefs_event he
        unfold eventRefs
        apply List.mem_append_left
        rw [hps]
        exact hr
  · intro hp
    cases ha : e.abstract with
    | none => exact Or.inl rfl
    | some a =>
      right
      rw [ha] at habs
      simp only [Bool.and_eq_true, decide_eq_true_eq] at habs
      exact ⟨a, rfl, habs.1.2, habs.2⟩
  · intro hp
    cases ha : e.abstract with
    | none => rfl
    | some a =>
      rw [ha] at habs
      simp only [Bool.and_eq_true, decide_eq_true_eq] at habs
      exact absurd habs.1.1 hp

theorem scrResolvable_of_canonical {d : Doc} {reg : Registry}
    (hall : (docRefs d).all canonicalRefB = true)
    (hcons : consistentRefsB (docRefs d) = true)
    (hlk : ∀ n, lookupKey n reg = lookupKey n (exportRegistry d))
    {e : Event} (he : e ∈ d.events)
    (hc : canonicalEventB d.sessions e = true) :
    scrResolvable reg e := by
  intro hscr
  simp only [canonicalEventB, Bool.and_eq_true, decide_eq_true_eq] at hc
  obtain ⟨⟨⟨⟨⟨⟨⟨⟨⟨⟨⟨hday, htime⟩, hvenue⟩, hcontent⟩, htype⟩, hnb⟩, hsn⟩,
    hpne⟩, habs⟩, hhead⟩, hlogo⟩, hfil⟩ := hc
  rw [if_pos hscr] at hfil
  simp only [Bool.and_eq_true, decide_eq_true_eq, List.all_eq_true] at hfil
  obtain ⟨⟨⟨hsome, hdayne⟩, hvenuene⟩, hfall⟩ := hfil
  refine ⟨hday, hdayne, hvenue, hvenuene, ?_⟩
  intro f hf
  have hfc := hfall f hf
  simp only [canonicalFilmB, Bool.and_eq_true, decide_eq_true_eq] at hfc
  refine ⟨hfc.1, hfc.2, ?_⟩
  intro r hr
  apply refResolvable_of_canonical hall hcons hlk
  apply mem_docRefs_event he
  unfold eventRefs
  apply List.mem_append_right
  rw [if_pos (by simp [hscr, hsome])]
  rw [List.mem_flatten]
  exact ⟨f.creatives, List.mem_map_of_mem Film.creatives hf, hr⟩

theorem dropCond_canonical {d : Doc} {e : Event}
    (hc : canonicalEventB d.sessions e = true) :
    dropCond d.sessions { e with films := none } = false := by
  simp only [canonicalEventB, Bool.and_eq_true, decide_eq_true_eq] at hc
  obtain ⟨⟨⟨⟨⟨⟨_, hsn⟩, _⟩, _⟩, _⟩, _⟩, _⟩ := hc
  unfold dropCond
  rw [show ({ e with films := none } : Event).session_num = e.session_num from rfl]
  cases hs : e.session_num with
  | none => rfl
  | some sn =>
    rw [hs] at hsn
    have hsn2 : hasKey sn d.sessions = true := hsn
    simp [pyTruthyOptStr, hsn2]

theorem map_restore {sf : List (Str × List Film)} : ∀ (evs : List Event),
    (∀ e ∈ evs, attachFilms sf { e with films := none } = e) →
    (evs.map (fun e => { e with films := none })).map (attachFilms sf) = evs := by
  intro evs
  induction evs with
  | nil => intro; rfl
  | cons e t ih =>
    intro h
    simp only [List.map_cons]
    rw [h e (by simp), ih (fun e2 he2 => h e2 (by simp [he2]))]

/-- Claim C1 (amended): for every document in the canonical form the exporter
itself produces — trimmed strings; participant names non-empty, free of
semicolons and of trailing parenthetical institutions; institutions
consistent per name and null or non-blank; format-stable times; strictly
increasing numeric session ids; distinct (day, time, venue) slots and
distinct screening slot labels; session_num references resolvable;
films present exactly on screening events (whose day and venue are
non-empty); headshot and logo null; abstracts only on plenaries, non-empty;
presenters null or non-empty; and panel_descriptions equal to the map of
non-empty session descriptions — exporting the four sheets and reconciling
them back yields exactly the original document, with no warnings, the final
registry being the one decoded from the Participants sheet. -/
theorem C1_roundtrip (d : Doc) (h : canonicalDoc d = true) :
    roundTrip d =
      .ok ⟨d, [], ⟨(buildLookup (exportParticipants d)).1, []⟩⟩ := by
  simp only [canonicalDoc, Bool.and_eq_true] at h
  obtain ⟨⟨⟨⟨⟨⟨⟨⟨hall, hcons⟩, hsessC⟩, hndkeys⟩, hinc⟩, hevC⟩, hndtrip⟩,
    hndlab⟩, hpd⟩ := h
  rw [decide_eq_true_eq] at hndkeys hndtrip hndlab hpd
  rw [List.all_eq_true] at hsessC hevC
  have hrefs : ∀ r ∈ docRefs d, r.name ≠ [] ∧ strip r.name = r.name ∧
      (r.institution = none ∨ ∃ c, r.institution = some c ∧ is_blank c = false) := by
    intro r hr
    have hcr := List.all_eq_true.mp hall r hr
    have hnm : canonicalNameB r.name = true := by
      simp only [canonicalRefB, Bool.and_eq_true] at hcr
      exact hcr.1
    obtain ⟨h1, h2, _, _⟩ := canonicalName_spec hnm
    exact ⟨h1, h2, canonicalRef_inst hcr⟩
  obtain ⟨hbuild, hlkeq⟩ := importedRegistry_lookup d hrefs
  have hlk2 : ∀ n, lookupKey n ((sortByName (exportRegistry d)).foldl
      (fun acc p => setKey p.1 p.2 acc) []) = lookupKey n (exportRegistry d) := by
    intro n
    rw [← hlkeq n, hbuild]
  have hsome : ∀ p ∈ d.sessions, (pyIntStr p.1).isSome = true := by
    intro p hp
    have hc := hsessC p hp
    simp only [canonicalSessionB, Bool.and_eq_true] at hc
    exact pyIntStr_isSome_of_digit hc.1.1.1.1.1
  have hsheets : exportSheets d = some
      { participants := exportParticipants d,
        sessions := (d.sessions.map (fun p => sessionRowsOf p.1 p.2)).flatten,
        events := d.events.map eventRowOf,
        screenings := (d.events.map screeningRowsOf).flatten } := by
    unfold exportSheets
    rw [exportSessionRows_id hsome hinc]
    rfl
  have hsessR : ∀ p ∈ d.sessions,
      sessionResolvable ((sortByName (exportRegistry d)).foldl
        (fun acc p => setKey p.1 p.2 acc) []) d.panel_descriptions p.1 p.2 :=
    fun p hp => sessionResolvable_of_canonical hall hcons hlk2
      (show (p.1, p.2) ∈ d.sessions from hp) (hsessC p hp)
  have hevR : ∀ e ∈ d.events,
      eventResolvable ((sortByName (exportRegistry d)).foldl
        (fun acc p => setKey p.1 p.2 acc) []) d.events e :=
    fun e he => eventResolvable_of_canonical hall hcons hlk2 hndtrip he (hevC e he)
  have hscrR : ∀ e ∈ d.events,
      scrResolvable ((sortByName (exportRegistry d)).foldl
        (fun acc p => setKey p.1 p.2 acc) []) e :=
    fun e he => scrResolvable_of_canonical hall hcons hlk2 he (hevC e he)
  have hdropAll : ∀ e2 ∈ d.events.map (fun e => { e with films := none }),
      dropCond d.sessions e2 = false := by
    intro e2 he2
    rw [List.mem_map] at he2
    obtain ⟨e, he, rfl⟩ := he2
    exact dropCond_canonical (hevC e he)
  have hattach : ∀ e ∈ d.events,
      attachFilms (slotFilms d.events) { e with films := none } = e := by
    intro e he
    by_cases hscr : e.type = "screening".toList
    · have hc := hevC e he
      simp only [canonicalEventB, Bool.and_eq_true, decide_eq_true_eq] at hc
      have hfil := hc.2
      rw [if_pos hscr] at hfil
      simp only [Bool.and_eq_true] at hfil
      have hsome2 : e.films.isSome = true := hfil.1.1.1
      rw [Option.isSome_iff_exists] at hsome2
      obtain ⟨fs, hfs⟩ := hsome2
      exact attachFilms_screening hndlab he hscr hfs
    · have hc := hevC e he
      simp only [canonicalEventB, Bool.and_eq_true, decide_eq_true_eq] at hc
      have hfil := hc.2
      rw [if_neg hscr] at hfil
      exact attachFilms_nonscreening hscr (of_decide_eq_true hfil)
  unfold roundTrip
  rw [hsheets]
  show importRun d
      { participants := exportParticipants d,
        sessions := (d.sessions.map (fun p => sessionRowsOf p.1 p.2)).flatten,
        events := d.events.map eventRowOf,
        screenings := (d.events.map screeningRowsOf).flatten } = _
  unfold importRun
  dsimp only
  rw [hbuild]
  dsimp only
  unfold processSessions
  rw [@sessions_fold d.panel_descriptions ⟨(sortByName (exportRegistry d)).foldl
      (fun acc p => setKey p.1 p.2 acc) [], []⟩ d.sessions [] none hsessR
    (fun p hp => rfl) hndkeys]
  dsimp only
  rw [List.nil_append]
  rw [@processEvents_roundtrip d.events ⟨(sortByName (exportRegistry d)).foldl
      (fun acc p => setKey p.1 p.2 acc) [], []⟩ d.events hevR]
  dsimp only
  rw [filterEvents_nodrop hdropAll]
  dsimp only
  unfold processScreenings
  rw [@screenings_fold ⟨(sortByName (exportRegistry d)).foldl
      (fun acc p => setKey p.1 p.2 acc) [], []⟩ d.events none [] hscrR
    (by simpa using hndlab)]
  dsimp only
  rw [List.nil_append]
  rw [map_restore d.events hattach]
  rw [← hpd]
  rfl

def refW1 : Ref := { name := "Alice".toList, institution := some (.str ("UniA".toList)) }

def refW2 : Ref := { name := "Bob".toList, institution := none }

def refW3 : Ref := { name := "Cara".toList, institution := some (.str ("UniC".toList)) }

def sessW1 : Session :=
  { type := "panel".toList, title := "T".toList, description := "D1".toList,
    presenters := [refW1],
    papers := [{ title := "P1".toList, abstract := "Abs".toList, authors := [refW2] }] }

def evW1 : Event :=
  { day := "Mon".toList, time := "0900".toList, venue := "Hall".toList,
    content := "Open".toList, type := "plenary".toList,
    session_num := some ("1".toList), affiliation := none,
    presenters := some [refW1], abstract := some ("A".toList), films := none,
    headshot_url := none, logo_url := none }

def evW2 : Event :=
  { day := "Mon".toList, time := "1100".toList, venue := "Cinema".toList,
    content := "Films".toList, type := "screening".toList,
    session_num := none, affiliation := none, presenters := none, abstract := none,
    films := some [{ title := "F".toList, year := some 2001, duration := some 90,
                     creatives := [refW3] }],
    headshot_url := none, logo_url := none }

/-- A concrete canonical document: one panel session with a paper, a plenary
event referencing it, and a screening event with one film. -/
def docW1 : Doc :=
  { conference := "c".toList, venues := "v".toList, events := [evW1, evW2],
    sessions := [("1".toList, sessW1)],
    panel_descriptions := [("1".toList, "D1".toList)] }

/-- Claim C1 (amended), witness: the concrete canonical document round-trips
to itself with no warnings. -/
theorem C1_roundtrip_witness :
    canonicalDoc docW1 = true ∧
    roundTrip docW1 =
      .ok ⟨docW1, [], ⟨(buildLookup (exportParticipants docW1)).1, []⟩⟩ :=
  ⟨by decide, C1_roundtrip docW1 (by decide)⟩

end Aspera
